import Mathlib

/-
Verification of the Taskinity core workflow engine
(`src/taskinity/core/taskinity_core.py`) : the DSL flow description
language (`parse_dsl`), the dependency-graph builder, the depth-first
topological scheduler and the execution engine (`run_flow_from_dsl`).

The Python code is shallowly embedded:
* Python strings are `List Char` (packed back to `String` for names);
  `str.strip`, `str.split`, `str.startswith` and the three `re.match`
  patterns of the source are modelled character by character.
* Python dicts are insertion-ordered association lists
  (`List (String × α)`) with `lookupKey` / `setKey`.
* Python sets (the dependency sets and the `visited` / `temp_visited`
  sets of the scheduler) are insertion-ordered duplicate-free lists;
  `set.add` is modelled as append-if-absent.
* Python exceptions are `Except` values: `parse_dsl` can raise
  `AttributeError` (appending to a string-valued `inputs`/`outputs`
  entry), the engine can raise the two `ValueError`s of the source
  (circular dependency / unknown task) and it re-raises exceptions of
  the task callables unchanged.
* Task callables are opaque functions from a keyword-argument dict to
  `Except ε V`; the execution engine additionally records each
  invocation (task name, results snapshot, keyword arguments) in a
  trace, so that theorems can speak about which callables were invoked
  and with which arguments.
-/

/-! ## Python string primitives -/

/-- Characters stripped by Python `str.strip()` with no argument. -/
def pyIsSpace (c : Char) : Bool :=
  c = ' ' || c = '\t' || c = '\n' || c = '\r' || c = '\x0B' || c = '\x0C'

/-- Characters matched by the regex class `\w` (ASCII fragment). -/
def isWordChar (c : Char) : Bool :=
  c.isAlpha || c.isDigit || c = '_'

/-- Drop trailing characters satisfying `p`. -/
def dropTrail (p : Char → Bool) (l : List Char) : List Char :=
  (l.reverse.dropWhile p).reverse

/-- Python `s.strip()` on a character list. -/
def pyStrip (l : List Char) : List Char :=
  dropTrail pyIsSpace (l.dropWhile pyIsSpace)

/-- Python `s.strip('\x22')`: remove leading and trailing quote characters. -/
def pyStripQuotes (l : List Char) : List Char :=
  dropTrail (fun c => c = '"') (l.dropWhile (fun c => c = '"'))

/-- Python `s.split('\n')` (always returns at least one piece). -/
def splitNl : List Char → List (List Char)
  | [] => [[]]
  | c :: rest =>
    if c = '\n' then [] :: splitNl rest
    else
      match splitNl rest with
      | [] => [[c]]
      | l :: ls => (c :: l) :: ls

/-- Python `needle in hay` for strings: substring containment. -/
def pySubstr (needle : List Char) : List Char → Bool
  | [] => needle.isEmpty
  | c :: rest => needle.isPrefixOf (c :: rest) || pySubstr needle rest

/-- Strip a literal off the front of a character list (or fail). -/
def stripLit : List Char → List Char → Option (List Char)
  | [], l => some l
  | _ :: _, [] => none
  | c :: cs, x :: xs => if x = c then stripLit cs xs else none

/-- The non-blank, stripped lines of the DSL text:
`[line.strip() for line in dsl_text.strip().split('\n') if line.strip()]`. -/
def cleanLines (text : String) : List (List Char) :=
  ((splitNl (pyStrip text.data)).map pyStrip).filter (fun l => !l.isEmpty)

/-! ## Regex matchers of `parse_dsl`

`re.match(r"flow\s+(\w+):", line)` and `re.match(r"task\s+(\w+):", line)`:
the literal keyword, one or more whitespace characters, one or more word
characters (the capture), then a colon; trailing text is irrelevant
(`re.match` only anchors at the start).  Because `\s` and `\w` are
disjoint and neither can match `:` or `-`, the greedy maximal-munch
reading used here is equivalent to the backtracking regex. -/

/-- Matcher for `re.match(kw ++ "\\s+(\\w+):", line)`, returning the capture. -/
def keywordMatch (kw : List Char) (l : List Char) : Option String :=
  match stripLit kw l with
  | none => none
  | some r1 =>
    let (ws, r2) := r1.span pyIsSpace
    if ws.isEmpty then none
    else
      let (w, r3) := r2.span isWordChar
      if w.isEmpty then none
      else
        match r3 with
        | ':' :: _ => some (String.mk w)
        | _ => none

/-- Matcher for `re.match(r"flow\s+(\w+):", line)`. -/
def flowMatch (l : List Char) : Option String :=
  keywordMatch "flow".data l

/-- Matcher for `re.match(r"task\s+(\w+):", line)`. -/
def taskMatch (l : List Char) : Option String :=
  keywordMatch "task".data l

/-- Matcher for `re.match(r"(\w+)\s*->\s*(\w+)", line)`, returning both captures. -/
def connMatch (l : List Char) : Option (String × String) :=
  let (w1, r1) := l.span isWordChar
  if w1.isEmpty then none
  else
    let r2 := (r1.span pyIsSpace).2
    match stripLit "->".data r2 with
    | none => none
    | some r3 =>
      let r4 := (r3.span pyIsSpace).2
      let (w2, _) := r4.span isWordChar
      if w2.isEmpty then none else some (String.mk w1, String.mk w2)

/-- Python `line.split(':', 1)[1]` (everything after the first colon). -/
def afterFirstColon (l : List Char) : List Char :=
  ((l.span (fun c => c ≠ ':')).2).drop 1

/-- Python `line.split(':', 1)[0]` (everything before the first colon). -/
def beforeFirstColon (l : List Char) : List Char :=
  l.takeWhile (fun c => c ≠ ':')

/-! ## Insertion-ordered dictionaries -/

/-- Python `d[key]` as an `Option` (`d.get(key)`). -/
def lookupKey {α : Type _} : List (String × α) → String → Option α
  | [], _ => none
  | (k, v) :: rest, key => if k = key then some v else lookupKey rest key

/-- Python `d[key] = v`: update in place if present, else append. -/
def setKey {α : Type _} : List (String × α) → String → α → List (String × α)
  | [], key, v => [(key, v)]
  | (k, w) :: rest, key, v =>
    if k = key then (k, v) :: rest else (k, w) :: setKey rest key v

/-- Python `key in d`. -/
def hasKey {α : Type _} (l : List (String × α)) (k : String) : Bool :=
  (lookupKey l k).isSome

/-! ## The flow-definition data model

A task node is the dict
`{"name": name, "inputs": [], "outputs": []}` of the source.  The
`key: value` property lines of the DSL can assign a *string* to any
key of this dict, including the reserved `inputs` / `outputs` keys, so
those two fields hold either a list (of task names) or a string. -/

/-- Value of the `inputs` / `outputs` entry of a task dict: normally a
list of task identifiers, but a `key: value` property line can
overwrite it with a string. -/
inductive FVal where
  | vlist (l : List String)
  | vstr (s : String)
deriving DecidableEq, Repr

/-- The per-task dict built by `parse_dsl`. -/
structure TaskNode where
  name : String
  inputs : FVal
  outputs : FVal
  props : List (String × String)
deriving DecidableEq, Repr

/-- The dict returned by `parse_dsl`: it always has exactly the keys
`name`, `description`, `tasks` and `connections`. -/
structure FlowData where
  name : String
  description : String
  tasks : List (String × TaskNode)
  connections : List (String × String)
deriving DecidableEq, Repr

/-- The `AttributeError` that `list.append`-on-a-`str` raises. -/
inductive ParseErr where
  | attributeError (field : String)
deriving DecidableEq, Repr

/-- A fresh task dict: `{"name": n, "inputs": [], "outputs": []}`. -/
def newTaskNode (n : String) : TaskNode :=
  ⟨n, .vlist [], .vlist [], []⟩

/-- Source line `if name not in flow_data["tasks"]: create the stub task dict`. -/
def ensureTask (fd : FlowData) (n : String) : FlowData :=
  if hasKey fd.tasks n then fd
  else { fd with tasks := fd.tasks ++ [(n, newTaskNode n)] }

/-- Property assignment `flow_data["tasks"][current_task][key] = value`: property keys
`name`, `inputs`, `outputs` hit the reserved entries of the task dict
(`inputs` / `outputs` become strings), any other key goes to `props`. -/
def setTaskProp (n : TaskNode) (key value : String) : TaskNode :=
  if key = "name" then { n with name := value }
  else if key = "inputs" then { n with inputs := .vstr value }
  else if key = "outputs" then { n with outputs := .vstr value }
  else { n with props := setKey n.props key value }

/-- Update the node stored under `k` (the source only does this for
keys that are present). -/
def updateTask (ts : List (String × TaskNode)) (k : String)
    (f : TaskNode → TaskNode) : List (String × TaskNode) :=
  ts.map (fun p => if p.1 = k then (p.1, f p.2) else p)

/-- One line of the first pass of `parse_dsl` (the `for line in
lines[1:]` loop), threading the flow dict and the `current_task`
context.  The classification order is that of the source: the
`description:` prefix test, the connection regex, the task-header
regex, then `key: value` property assignment when a task context is
active; anything else is ignored. -/
def stepLine (acc : FlowData × Option String) (l : List Char) :
    FlowData × Option String :=
  let fd := acc.1
  let cur := acc.2
  if ("description:".data).isPrefixOf l then
    ({ fd with
        description := String.mk (pyStripQuotes (pyStrip (afterFirstColon l))) },
      cur)
  else
    match connMatch l with
    | some (s, t) =>
      let fd := { fd with connections := fd.connections ++ [(s, t)] }
      let fd := ensureTask fd s
      let fd := ensureTask fd t
      (fd, cur)
    | none =>
      match taskMatch l with
      | some tname => (ensureTask fd tname, some tname)
      | none =>
        match cur with
        | some ct =>
          if l.contains ':' then
            let key := String.mk (pyStrip (beforeFirstColon l))
            let value := String.mk (pyStripQuotes (pyStrip (afterFirstColon l)))
            ({ fd with tasks := updateTask fd.tasks ct (fun n => setTaskProp n key value) },
              cur)
          else (fd, cur)
        | none => (fd, cur)

/-- The whole first pass over `lines[1:]`. -/
def processLines (lines : List (List Char)) (fd : FlowData) :
    FlowData × Option String :=
  lines.foldl stepLine (fd, none)

/-- The initial flow dict:
`{"name": "UnnamedFlow", "description": "", "tasks": {}, "connections": []}`. -/
def initFlow : FlowData :=
  ⟨"UnnamedFlow", "", [], []⟩

/-- Second pass, source side: append `target` to
`tasks[source]["outputs"]` unless already present.  If a property line
replaced `outputs` by a string, Python's `target not in s` is a
substring test, and the subsequent `.append` raises `AttributeError`. -/
def addConnOutput (n : TaskNode) (target : String) : Except ParseErr TaskNode :=
  match n.outputs with
  | .vlist l =>
    if target ∈ l then .ok n else .ok { n with outputs := .vlist (l ++ [target]) }
  | .vstr s =>
    if pySubstr target.data s.data then .ok n
    else .error (.attributeError "outputs")

/-- Second pass, target side: append `source` to
`tasks[target]["inputs"]` unless already present (same string quirk). -/
def addConnInput (n : TaskNode) (source : String) : Except ParseErr TaskNode :=
  match n.inputs with
  | .vlist l =>
    if source ∈ l then .ok n else .ok { n with inputs := .vlist (l ++ [source]) }
  | .vstr s =>
    if pySubstr source.data s.data then .ok n
    else .error (.attributeError "inputs")

/-- Source-side branch `if source in flow_data["tasks"] and ...` of the second pass. -/
def applyConnSource (ts : List (String × TaskNode)) (s t : String) :
    Except ParseErr (List (String × TaskNode)) :=
  match lookupKey ts s with
  | none => .ok ts
  | some n =>
    match addConnOutput n t with
    | .error e => .error e
    | .ok n2 => .ok (setKey ts s n2)

/-- Target-side branch `if target in flow_data["tasks"] and ...` of the second pass. -/
def applyConnTarget (ts : List (String × TaskNode)) (s t : String) :
    Except ParseErr (List (String × TaskNode)) :=
  match lookupKey ts t with
  | none => .ok ts
  | some n =>
    match addConnInput n s with
    | .error e => .error e
    | .ok n2 => .ok (setKey ts t n2)

/-- Loop `for conn in flow_data["connections"]: ...` (the second pass). -/
def connsFold : List (String × String) → List (String × TaskNode) →
    Except ParseErr (List (String × TaskNode))
  | [], ts => .ok ts
  | (s, t) :: rest, ts =>
    match applyConnSource ts s t with
    | .error e => .error e
    | .ok ts1 =>
      match applyConnTarget ts1 s t with
      | .error e => .error e
      | .ok ts2 => connsFold rest ts2

/-- The first pass of `parse_dsl`: the flow-name match on `lines[0]`
followed by the line loop over `lines[1:]`.  (On empty input the loop
body is not reached and the initial dict is returned, exactly as in
the source, where `lines[1:]` of a one-element list is empty.) -/
def firstPass (text : String) : FlowData :=
  match cleanLines text with
  | [] => initFlow
  | l0 :: rest =>
    let name0 := match flowMatch l0 with
      | some n => n
      | none => "UnnamedFlow"
    (processLines rest { initFlow with name := name0 }).1

/-- First pass starting from a given line list with the default name
(what `parse_dsl` does to `lines[1:]` when `lines[0]` is not a flow
header), followed by the second pass. -/
def parseFrom (lines : List (List Char)) : Except ParseErr FlowData :=
  match connsFold ((processLines lines initFlow).1).connections
      ((processLines lines initFlow).1).tasks with
  | .error e => .error e
  | .ok ts => .ok { (processLines lines initFlow).1 with tasks := ts }

/-- The embedding of `parse_dsl` (lines 234–317 of the source).  A
`.error` value models the Python call raising an exception. -/
def parse_dsl (text : String) : Except ParseErr FlowData :=
  match connsFold (firstPass text).connections (firstPass text).tasks with
  | .error e => .error e
  | .ok ts => .ok { firstPass text with tasks := ts }

/-- Whether an `inputs` / `outputs` entry still holds a list (has not
been overwritten by a `key: value` property line). -/
def isVlist : FVal → Bool
  | .vlist _ => true
  | .vstr _ => false

deriving instance DecidableEq for Except

/-! ## Dependency-graph builder (lines 342–346 of `run_flow_from_dsl`)

`dependencies = {task: set() for task in flow_data["tasks"]}` followed
by `dependencies[target].add(source)` for every connection.  A Python
set is modelled as an insertion-ordered duplicate-free list, so `add`
appends when absent.  Indexing a missing key would raise `KeyError`
(an unreachable path after `parse_dsl`, which creates a task for both
endpoints of every connection). -/

/-- Update `dependencies[target].add(source)` (with the `KeyError` path). -/
def addDep (m : List (String × List String)) (target source : String) :
    Except String (List (String × List String)) :=
  match lookupKey m target with
  | none => .error target
  | some l => .ok (setKey m target (if source ∈ l then l else l ++ [source]))

/-- The fold over `flow_data["connections"]`. -/
def depsFold : List (String × String) → List (String × List String) →
    Except String (List (String × List String))
  | [], m => .ok m
  | (s, t) :: rest, m =>
    match addDep m t s with
    | .error k => .error k
    | .ok m2 => depsFold rest m2

/-- Build the dependency map of a parsed flow. -/
def buildDeps (fd : FlowData) : Except String (List (String × List String)) :=
  depsFold fd.connections (fd.tasks.map (fun p => (p.1, [])))

/-! ## Topological scheduler (lines 348–369)

The recursive `visit` with the `temp_visited` / `visited` sets and the
`order` list.  Recursion is by fuel (structural, so that concrete runs
compute); `topoSort` supplies fuel `deps.length + 1`, which the
theorems below show is never exhausted, because the depth of nested
`visit` calls is bounded by the number of distinct tasks on the
`temp_visited` chain. -/

/-- Scheduler state: the two marker sets and the output order. -/
structure TopoSt where
  visited : List String
  temp : List String
  order : List String
deriving DecidableEq, Repr

/-- Failures of the scheduler: the `ValueError` cycle report, a
`KeyError` on a task absent from the dependency map, and fuel
exhaustion (an artefact of the embedding, proved unreachable). -/
inductive TopoErr where
  | circular (t : String)
  | keyError (t : String)
  | fuelOut
deriving DecidableEq, Repr

/-- Loop `for dep in dependencies[task]: visit(dep)` — sequence a visitor
over a list of dependencies, stopping at the first exception. -/
def seqVisit (f : String → TopoSt → Except TopoErr TopoSt) :
    List String → TopoSt → Except TopoErr TopoSt
  | [], st => .ok st
  | d :: ds, st =>
    match f d st with
    | .error e => .error e
    | .ok st2 => seqVisit f ds st2

/-- The recursive `visit(task)` of the source: raise on an in-progress
task (cycle), return on a completed task, otherwise mark in-progress,
visit all dependencies, then move the task to `visited` and append it
to `order`. -/
def visit (deps : List (String × List String)) :
    Nat → String → TopoSt → Except TopoErr TopoSt
  | 0, _, _ => .error .fuelOut
  | fuel + 1, t, st =>
    if t ∈ st.temp then .error (.circular t)
    else if t ∈ st.visited then .ok st
    else
      match lookupKey deps t with
      | none => .error (.keyError t)
      | some ds =>
        match seqVisit (visit deps fuel) ds { st with temp := st.temp ++ [t] } with
        | .error e => .error e
        | .ok st2 =>
          .ok ⟨st2.visited ++ [t], st2.temp.erase t, st2.order ++ [t]⟩

/-- Loop `for task in dependencies: if task not in visited: visit(task)`. -/
def topoLoop (deps : List (String × List String)) (fuel : Nat) :
    List String → TopoSt → Except TopoErr TopoSt
  | [], st => .ok st
  | t :: ts, st =>
    if t ∈ st.visited then topoLoop deps fuel ts st
    else
      match visit deps fuel t st with
      | .error e => .error e
      | .ok st2 => topoLoop deps fuel ts st2

/-- The whole scheduling phase: returns the execution order. -/
def topoSort (deps : List (String × List String)) :
    Except TopoErr (List String) :=
  match topoLoop deps (deps.length + 1) (deps.map Prod.fst) ⟨[], [], []⟩ with
  | .error e => .error e
  | .ok st => .ok st.order

/-! ## Execution engine (lines 371–411) -/

/-- A registry entry: the callable's formal parameter names (what
`inspect.signature` yields in the source) and the callable itself,
taking the keyword-argument dict and either returning a value or
raising (`Except.error`). -/
structure TaskDef (V ε : Type _) where
  params : List String
  func : List (String × V) → Except ε V

/-- One recorded invocation of a task callable: the task name, the
`results` dict at call time and the keyword arguments passed. -/
structure Call (V : Type _) where
  task : String
  snapshot : List (String × V)
  args : List (String × V)
deriving DecidableEq, Repr

/-- Failures of `run_flow_from_dsl`: a parse exception, a `KeyError`,
the two `ValueError`s of the engine (cycle, unknown task), fuel
exhaustion (unreachable) and an exception `e : ε` raised by a task
callable and re-raised unchanged by the engine. -/
inductive RunErr (ε : Type _) where
  | parseErr (e : ParseErr)
  | keyError (k : String)
  | circular (t : String)
  | unknownTask (t : String)
  | fuelOut
  | taskErr (e : ε)
deriving DecidableEq, Repr

/-- The dependency-results loop of the argument assembly: for every
direct dependency `d`, if `d + "_result"` is a formal parameter, bind
it to `results[d]` (a missing `results` entry would be a `KeyError`,
proved unreachable). -/
def addDepArgs {V : Type _} (params : List String) (results : List (String × V)) :
    List String → List (String × V) → Except String (List (String × V))
  | [], args => .ok args
  | d :: ds, args =>
    if (d ++ "_result") ∈ params then
      match lookupKey results d with
      | some v => addDepArgs params results ds (setKey args (d ++ "_result") v)
      | none => .error d
    else addDepArgs params results ds args

/-- The input-data loop of the argument assembly: every `input_data`
key that is a formal parameter is bound (after the dependency loop, so
it overwrites a dependency binding of the same name). -/
def addInputArgs {V : Type _} (params : List String) :
    List (String × V) → List (String × V) → List (String × V)
  | [], args => args
  | (k, v) :: rest, args =>
    if k ∈ params then addInputArgs params rest (setKey args k v)
    else addInputArgs params rest args

/-- The whole `task_args` assembly for one task (lines 382–399). -/
def buildArgs {V : Type _} (taskDeps params : List String)
    (results input : List (String × V)) : Except String (List (String × V)) :=
  match addDepArgs params results taskDeps [] with
  | .error d => .error d
  | .ok args => .ok (addInputArgs params input args)

/-- The `for task_name in order` execution loop (lines 372–409),
additionally recording every callable invocation in a trace. -/
def execLoop {V ε : Type _} (reg : List (String × TaskDef V ε))
    (deps : List (String × List String)) (input : List (String × V)) :
    List String → List (String × V) →
    Except (RunErr ε) (List (String × V)) × List (Call V)
  | [], results => (.ok results, [])
  | t :: rest, results =>
    match lookupKey reg t with
    | none => (.error (.unknownTask t), [])
    | some td =>
      match lookupKey deps t with
      | none => (.error (.keyError t), [])
      | some tdeps =>
        match buildArgs tdeps td.params results input with
        | .error d => (.error (.keyError d), [])
        | .ok args =>
          match td.func args with
          | .error e => (.error (.taskErr e), [⟨t, results, args⟩])
          | .ok v =>
            let p := execLoop reg deps input rest (setKey results t v)
            (p.1, ⟨t, results, args⟩ :: p.2)

/-- The embedding of `run_flow_from_dsl` (lines 319–411): parse, build
the dependency map, schedule, execute.  Returns the `results` dict (or
the exception) together with the invocation trace. -/
def runFlow {V ε : Type _} (dsl : String) (reg : List (String × TaskDef V ε))
    (input : List (String × V)) :
    Except (RunErr ε) (List (String × V)) × List (Call V) :=
  match parse_dsl dsl with
  | .error e => (.error (.parseErr e), [])
  | .ok fd =>
    match buildDeps fd with
    | .error k => (.error (.keyError k), [])
    | .ok deps =>
      match topoSort deps with
      | .error (.circular t) => (.error (.circular t), [])
      | .error (.keyError t) => (.error (.keyError t), [])
      | .error .fuelOut => (.error .fuelOut, [])
      | .ok order => execLoop reg deps input order []

/-! ## Relations and invariants used by the theorems -/

/-- Task `u` directly depends on `v` in a dependency map: `v` is in the set
stored for `u`. -/
def depOn (deps : List (String × List String)) (u v : String) : Prop :=
  ∃ ds, lookupKey deps u = some ds ∧ v ∈ ds

/-- No task lies on a dependency cycle. -/
def Acyclic (deps : List (String × List String)) : Prop :=
  ∀ t, ¬ Relation.TransGen (depOn deps) t t

/-- Well-formedness of a dependency map: every recorded dependency is
itself a key of the map (true of every map `buildDeps` produces from a
parsed flow, since `parse_dsl` creates a task for both endpoints of a
connection). -/
def closedDeps (deps : List (String × List String)) : Prop :=
  ∀ p ∈ deps, ∀ d ∈ p.2, d ∈ deps.map Prod.fst

/-- A list of tasks is topologically ordered: at every split
`l₁ ++ u :: l₂`, all dependencies of `u` already occur in `l₁`. -/
def OrdOK (deps : List (String × List String)) (l : List String) : Prop :=
  ∀ l1 u l2, l = l1 ++ u :: l2 → ∀ v, depOn deps u v → v ∈ l1

/-- Invariant of the scheduler state: `order` mirrors `visited`,
`visited` is duplicate-free and disjoint from `temp_visited`, and the
tasks already emitted are topologically ordered. -/
def GoodSt (deps : List (String × List String)) (st : TopoSt) : Prop :=
  st.order = st.visited ∧ st.visited.Nodup ∧
    (∀ x ∈ st.temp, x ∉ st.visited) ∧ OrdOK deps st.visited

/-- The `temp_visited` chain is duplicate-free and within the key set. -/
def TempOK (deps : List (String × List String)) (st : TopoSt) : Prop :=
  st.temp.Nodup ∧ ∀ x ∈ st.temp, x ∈ deps.map Prod.fst

/-- What the argument assembly is claimed to bind a parameter `k` to:
nothing unless `k` is a formal parameter; the `input_data` value when
`input_data` has key `k` (input bindings are applied second, so they
win); otherwise the recorded result of the direct dependency `d` with
`k = d ++ "_result"`, if there is one. -/
def argSpec {V : Type _} (taskDeps params : List String)
    (results input : List (String × V)) (k : String) : Option V :=
  if k ∈ params then
    match lookupKey input k with
    | some v => some v
    | none =>
      match taskDeps.find? (fun d => (d ++ "_result") == k) with
      | some d => lookupKey results d
      | none => none
  else none

/-- Written from the claim's words, for comparison with the parser
output: the sources of the connections targeting `t`, duplicates
suppressed, in first-seen declaration order. -/
def specInputsOf (conns : List (String × String)) (t : String) : List String :=
  conns.foldl (fun acc c => if c.2 = t ∧ c.1 ∉ acc then acc ++ [c.1] else acc) []

/-- Written from the claim's words, for comparison with the parser
output: the targets of the connections sourced at `t`, duplicates
suppressed, in first-seen declaration order. -/
def specOutputsOf (conns : List (String × String)) (t : String) : List String :=
  conns.foldl (fun acc c => if c.1 = t ∧ c.2 ∉ acc then acc ++ [c.2] else acc) []

/-- Registry for the input-overrides-dependency scenario: `a` returns
`"A"`; `b` takes `a_result` and returns it. -/
def overrideReg : List (String × TaskDef String Unit) :=
  [("a", ⟨[], fun _ => .ok "A"⟩),
   ("b", ⟨["a_result"], fun args => .ok ((lookupKey args "a_result").getD "")⟩)]

/-- Registry whose task `a` raises (`ε := String` carries the message). -/
def failReg : List (String × TaskDef String String) :=
  [("a", ⟨[], fun _ => .error "boom"⟩),
   ("b", ⟨[], fun _ => .ok "B"⟩)]

/-- Registry that only knows task `a` (task `b` is unregistered). -/
def limitedReg : List (String × TaskDef String Unit) :=
  [("a", ⟨[], fun _ => .ok "A"⟩)]

def sampleReg : List (String × TaskDef String Unit) :=
  [("a", ⟨[], fun _ => .ok "A"⟩),
   ("b", ⟨["a_result"], fun args =>
      match lookupKey args "a_result" with
      | some v => .ok (v ++ "B")
      | none => .error ()⟩),
   ("c", ⟨["a_result"], fun args =>
      match lookupKey args "a_result" with
      | some v => .ok (v ++ "C")
      | none => .error ()⟩),
   ("d", ⟨["b_result", "c_result"], fun args =>
      match lookupKey args "b_result", lookupKey args "c_result" with
      | some vb, some vc => .ok (vb ++ vc)
      | _, _ => .error ()⟩)]

/-! ## Dictionary lemmas -/

theorem lookupKey_mem {α : Type _} {l : List (String × α)} {k : String} {v : α}
    (h : lookupKey l k = some v) : (k, v) ∈ l := by
  induction l with
  | nil => simp [lookupKey] at h
  | cons p rest ih =>
    obtain ⟨k0, v0⟩ := p
    by_cases hk : k0 = k
    · subst hk
      simp [lookupKey] at h
      simp [h]
    · simp [lookupKey, hk] at h
      exact List.mem_cons_of_mem _ (ih h)

theorem lookupKey_isSome_iff {α : Type _} {l : List (String × α)} {k : String} :
    (lookupKey l k).isSome ↔ k ∈ l.map Prod.fst := by
  induction l with
  | nil => simp [lookupKey]
  | cons p rest ih =>
    obtain ⟨k0, v0⟩ := p
    by_cases hk : k0 = k
    · subst hk; simp [lookupKey]
    · simp [lookupKey, hk, ih, Ne.symm hk]

theorem lookupKey_eq_none_iff {α : Type _} {l : List (String × α)} {k : String} :
    lookupKey l k = none ↔ k ∉ l.map Prod.fst := by
  rw [← lookupKey_isSome_iff, Option.isSome_iff_exists]
  cases lookupKey l k <;> simp

theorem lookupKey_setKey {α : Type _} (l : List (String × α)) (k : String) (v : α)
    (key : String) :
    lookupKey (setKey l k v) key = if key = k then some v else lookupKey l key := by
  induction l with
  | nil =>
    by_cases h : key = k
    · simp [setKey, lookupKey, h]
    · simp [setKey, lookupKey, h, Ne.symm h]
  | cons p rest ih =>
    obtain ⟨k0, v0⟩ := p
    by_cases h0 : k0 = k
    · subst h0
      by_cases h : key = k0
      · subst h; simp [setKey, lookupKey]
      · simp [setKey, lookupKey, h, Ne.symm h]
    · by_cases h : k0 = key
      · subst h
        have hne : ¬ k0 = k := h0
        simp [setKey, lookupKey, h0, hne]
      · simp [setKey, lookupKey, h0, h, ih]

theorem mem_setKey {α : Type _} {l : List (String × α)} {k : String} {v : α}
    {p : String × α} (h : p ∈ setKey l k v) : p ∈ l ∨ p = (k, v) := by
  induction l with
  | nil => simp [setKey] at h; simp [h]
  | cons q rest ih =>
    obtain ⟨k0, v0⟩ := q
    by_cases h0 : k0 = k
    · subst h0
      simp [setKey] at h
      rcases h with h | h
      · right; simp [h]
      · left; exact List.mem_cons_of_mem _ h
    · simp [setKey, h0] at h
      rcases h with h | h
      · left; simp [h]
      · rcases ih h with h' | h'
        · exact Or.inl (List.mem_cons_of_mem _ h')
        · exact Or.inr h'

theorem map_fst_setKey_of_mem {α : Type _} {l : List (String × α)} {k : String}
    (v : α) (h : k ∈ l.map Prod.fst) :
    (setKey l k v).map Prod.fst = l.map Prod.fst := by
  induction l with
  | nil => simp at h
  | cons q rest ih =>
    obtain ⟨k0, v0⟩ := q
    by_cases h0 : k0 = k
    · subst h0; simp [setKey]
    · have hmem : k = k0 ∨ k ∈ rest.map Prod.fst := by simpa using h
      have h' : k ∈ rest.map Prod.fst := by
        rcases hmem with h1 | h1
        · exact absurd h1.symm h0
        · exact h1
      simp [setKey, h0, ih h']

/-! ## Claim C1 : totality of `parse_dsl` -/

/-- Counterexample to claim C1: a task property line literally named `outputs`, followed by a
connection out of that task, makes `parse_dsl` raise `AttributeError`
(Python appends to a string), so `parse_dsl` is not total. -/
theorem parse_dsl_not_total_cex :
    parse_dsl "flow F:\ntask a:\noutputs: x\na -> b" =
      .error (.attributeError "outputs") := by decide

theorem connsFold_ok_of_vlist (conns : List (String × String))
    {ts : List (String × TaskNode)}
    (h : ∀ p ∈ ts, isVlist p.2.inputs = true ∧ isVlist p.2.outputs = true) :
    ∃ ts', connsFold conns ts = .ok ts' := by
  induction conns generalizing ts with
  | nil => exact ⟨ts, rfl⟩
  | cons c rest ih =>
    obtain ⟨s, t⟩ := c
    have hsrc : ∃ ts1, applyConnSource ts s t = .ok ts1 ∧
        ∀ p ∈ ts1, isVlist p.2.inputs = true ∧ isVlist p.2.outputs = true := by
      unfold applyConnSource
      cases hl : lookupKey ts s with
      | none => exact ⟨ts, rfl, h⟩
      | some n =>
        have hn := h _ (lookupKey_mem hl)
        cases hout : n.outputs with
        | vstr str => simp [hout, isVlist] at hn
        | vlist lo =>
          by_cases hmem : t ∈ lo
          · refine ⟨setKey ts s n, by simp [addConnOutput, hout, hmem], ?_⟩
            intro p hp
            rcases mem_setKey hp with h' | h'
            · exact h _ h'
            · subst h'; exact hn
          · refine ⟨setKey ts s { n with outputs := .vlist (lo ++ [t]) },
              by simp [addConnOutput, hout, hmem], ?_⟩
            intro p hp
            rcases mem_setKey hp with h' | h'
            · exact h _ h'
            · subst h'; exact ⟨hn.1, rfl⟩
    obtain ⟨ts1, hts1, hts1p⟩ := hsrc
    have htgt : ∃ ts2, applyConnTarget ts1 s t = .ok ts2 ∧
        ∀ p ∈ ts2, isVlist p.2.inputs = true ∧ isVlist p.2.outputs = true := by
      unfold applyConnTarget
      cases hl : lookupKey ts1 t with
      | none => exact ⟨ts1, rfl, hts1p⟩
      | some n =>
        have hn := hts1p _ (lookupKey_mem hl)
        cases hin : n.inputs with
        | vstr str => simp [hin, isVlist] at hn
        | vlist li =>
          by_cases hmem : s ∈ li
          · refine ⟨setKey ts1 t n, by simp [addConnInput, hin, hmem], ?_⟩
            intro p hp
            rcases mem_setKey hp with h' | h'
            · exact hts1p _ h'
            · subst h'; exact hn
          · refine ⟨setKey ts1 t { n with inputs := .vlist (li ++ [s]) },
              by simp [addConnInput, hin, hmem], ?_⟩
            intro p hp
            rcases mem_setKey hp with h' | h'
            · exact hts1p _ h'
            · subst h'; exact ⟨rfl, hn.2⟩
    obtain ⟨ts2, hts2, hts2p⟩ := htgt
    obtain ⟨ts', hts'⟩ := ih hts2p
    exact ⟨ts', by simp [connsFold, hts1, hts2, hts']⟩

/-- Claim C1 (amended): `parse_dsl` returns the four-key flow structure
for every input text whose first pass leaves every task's `inputs` and
`outputs` entries as lists; when a task property literally named
`inputs` or `outputs` overwrites such an entry with a string, a
subsequent connection involving that task can make `parse_dsl` raise
`AttributeError` (see `parse_dsl_not_total_cex`). -/
theorem parse_dsl_total_without_reserved_overwrite (text : String)
    (h : ∀ p ∈ (firstPass text).tasks,
      isVlist p.2.inputs = true ∧ isVlist p.2.outputs = true) :
    ∃ fd, parse_dsl text = .ok fd := by
  obtain ⟨ts', hts'⟩ := connsFold_ok_of_vlist (firstPass text).connections h
  exact ⟨{ firstPass text with tasks := ts' }, by unfold parse_dsl; simp [hts']⟩

theorem parse_dsl_total_without_reserved_overwrite_witness :
    (∀ p ∈ (firstPass "flow F:\na -> b\nb -> c").tasks,
      isVlist p.2.inputs = true ∧ isVlist p.2.outputs = true) ∧
    ∃ fd, parse_dsl "flow F:\na -> b\nb -> c" = .ok fd :=
  ⟨by decide,
   parse_dsl_total_without_reserved_overwrite "flow F:\na -> b\nb -> c" (by decide)⟩

/-! ## Claim C7 : connection round-trip -/

/-- Claim C7: parsing the four connections `a->b`, `a->c`, `b->d`, `c->d` yields
`tasks["a"].outputs == ["b","c"]` and `tasks["d"].inputs == ["b","c"]`;
moreover every task's `inputs` list is exactly the first-seen
duplicate-suppressed sources of the connections targeting it, and its
`outputs` list the first-seen targets of the connections it sources
(`specInputsOf` / `specOutputsOf` are written from the claim's words). -/
theorem parse_roundtrip_connections :
    parse_dsl "flow F:\na -> b\na -> c\nb -> d\nc -> d" =
      .ok ⟨"F", "",
            [("a", ⟨"a", .vlist [], .vlist ["b", "c"], []⟩),
             ("b", ⟨"b", .vlist ["a"], .vlist ["d"], []⟩),
             ("c", ⟨"c", .vlist ["a"], .vlist ["d"], []⟩),
             ("d", ⟨"d", .vlist ["b", "c"], .vlist [], []⟩)],
            [("a", "b"), ("a", "c"), ("b", "d"), ("c", "d")]⟩ ∧
    ∀ p ∈ [("a", (⟨"a", .vlist [], .vlist ["b", "c"], []⟩ : TaskNode)),
           ("b", ⟨"b", .vlist ["a"], .vlist ["d"], []⟩),
           ("c", ⟨"c", .vlist ["a"], .vlist ["d"], []⟩),
           ("d", ⟨"d", .vlist ["b", "c"], .vlist [], []⟩)],
      p.2.inputs =
        .vlist (specInputsOf [("a", "b"), ("a", "c"), ("b", "d"), ("c", "d")] p.1) ∧
      p.2.outputs =
        .vlist (specOutputsOf [("a", "b"), ("a", "c"), ("b", "d"), ("c", "d")] p.1) := by
  decide

/-! ## Claim C8 : an unmatched first line contributes nothing -/

theorem ensureTask_name (fd : FlowData) (n : String) :
    (ensureTask fd n).name = fd.name := by
  unfold ensureTask; split <;> rfl

theorem stepLine_name (acc : FlowData × Option String) (l : List Char) :
    (stepLine acc l).1.name = acc.1.name := by
  obtain ⟨fd, cur⟩ := acc
  unfold stepLine
  repeat' split
  all_goals first
    | rfl
    | (cases cur <;> rfl)
    | simp [ensureTask_name]

theorem foldl_stepLine_name (lines : List (List Char))
    (acc : FlowData × Option String) :
    ((lines.foldl stepLine acc).1).name = acc.1.name := by
  induction lines generalizing acc with
  | nil => rfl
  | cons l rest ih => rw [List.foldl_cons, ih]; exact stepLine_name acc l

/-- Claim C8: a first non-blank line that does not match `flow <identifier>:` is
not classified under any other rule: the parse result is exactly that
of processing only the remaining lines from the initial state, and the
flow name stays `"UnnamedFlow"`. -/
theorem parse_ignores_unmatched_first_line (text : String) (l0 : List Char)
    (rest : List (List Char)) (h0 : cleanLines text = l0 :: rest)
    (hm : flowMatch l0 = none) :
    parse_dsl text = parseFrom rest ∧
    ∀ fd, parse_dsl text = .ok fd → fd.name = "UnnamedFlow" := by
  have hfp : firstPass text = (processLines rest initFlow).1 := by
    unfold firstPass
    rw [h0]
    simp [hm]
    rfl
  have hpf : parse_dsl text = parseFrom rest := by
    unfold parse_dsl parseFrom
    rw [hfp]
  refine ⟨hpf, ?_⟩
  intro fd hfd
  rw [hpf] at hfd
  unfold parseFrom at hfd
  cases hcf : connsFold ((processLines rest initFlow).1).connections
      ((processLines rest initFlow).1).tasks with
  | error e => rw [hcf] at hfd; cases hfd
  | ok ts =>
    rw [hcf] at hfd
    cases hfd
    show ((processLines rest initFlow).1).name = "UnnamedFlow"
    exact foldl_stepLine_name rest (initFlow, none)

theorem parse_ignores_unmatched_first_line_witness :
    cleanLines "a -> b\nx -> y" = ["a -> b".data, "x -> y".data] ∧
    flowMatch "a -> b".data = none ∧
    parse_dsl "a -> b\nx -> y" = parseFrom ["x -> y".data] ∧
    ∀ fd, parse_dsl "a -> b\nx -> y" = .ok fd → fd.name = "UnnamedFlow" := by
  refine ⟨by decide, by decide, ?_⟩
  exact parse_ignores_unmatched_first_line "a -> b\nx -> y" "a -> b".data
    ["x -> y".data] (by decide) (by decide)

/-! ## Execution-engine lemmas: the argument assembly -/

theorem string_append_right_cancel {a b c : String} (h : a ++ c = b ++ c) :
    a = b := by
  cases a with
  | mk la =>
    cases b with
    | mk lb =>
      cases c with
      | mk lc =>
        have hd : la ++ lc = lb ++ lc := by
          have := congrArg String.data h
          simpa [String.data_append] using this
        exact congrArg String.mk ((List.append_inj' hd rfl).1)

theorem addDepArgs_lookup_unclaimed {V : Type _} (params : List String)
    (results : List (String × V)) :
    ∀ (taskDeps : List String) (args0 args : List (String × V)) (k : String),
      addDepArgs params results taskDeps args0 = .ok args →
      (∀ d ∈ taskDeps, ¬ d ++ "_result" = k) →
      lookupKey args k = lookupKey args0 k := by
  intro taskDeps
  induction taskDeps with
  | nil =>
    intro args0 args k h _
    simp [addDepArgs] at h
    rw [h]
  | cons d0 ds ih =>
    intro args0 args k h hk
    unfold addDepArgs at h
    by_cases hp : (d0 ++ "_result") ∈ params
    · rw [if_pos hp] at h
      cases hr : lookupKey results d0 with
      | none => rw [hr] at h; cases h
      | some v =>
        rw [hr] at h
        dsimp only at h
        rw [ih _ args k h (fun d hd => hk d (List.mem_cons_of_mem _ hd)),
          lookupKey_setKey, if_neg]
        intro hkk
        exact hk d0 (List.mem_cons_self d0 ds) hkk.symm
    · rw [if_neg hp] at h
      exact ih _ args k h (fun d hd => hk d (List.mem_cons_of_mem _ hd))

theorem addDepArgs_lookup_dep {V : Type _} (params : List String)
    (results : List (String × V)) :
    ∀ (taskDeps : List String) (args0 args : List (String × V)) (d : String),
      taskDeps.Nodup → d ∈ taskDeps →
      addDepArgs params results taskDeps args0 = .ok args →
      (d ++ "_result") ∈ params →
      lookupKey args (d ++ "_result") = lookupKey results d := by
  intro taskDeps
  induction taskDeps with
  | nil => intro _ _ d _ hd; cases hd
  | cons d0 ds ih =>
    intro args0 args d hnd hd h hparam
    have hd0 : d0 ∉ ds := (List.nodup_cons.mp hnd).1
    have hnd' : ds.Nodup := (List.nodup_cons.mp hnd).2
    unfold addDepArgs at h
    rcases List.mem_cons.mp hd with rfl | hd'
    · rw [if_pos hparam] at h
      cases hr : lookupKey results d with
      | none => rw [hr] at h; cases h
      | some v =>
        rw [hr] at h
        dsimp only at h
        rw [addDepArgs_lookup_unclaimed params results ds _ args _ h ?claimed,
          lookupKey_setKey, if_pos rfl]
        case claimed =>
          intro d' hd' hdk
          exact hd0 (string_append_right_cancel hdk ▸ hd')
    · by_cases hp : (d0 ++ "_result") ∈ params
      · rw [if_pos hp] at h
        cases hr : lookupKey results d0 with
        | none => rw [hr] at h; cases h
        | some v =>
          rw [hr] at h
          dsimp only at h
          exact ih _ args d hnd' hd' h hparam
      · rw [if_neg hp] at h
        exact ih _ args d hnd' hd' h hparam

theorem addDepArgs_lookup_dep_noparam {V : Type _} (params : List String)
    (results : List (String × V)) :
    ∀ (taskDeps : List String) (args0 args : List (String × V)) (d : String),
      taskDeps.Nodup → d ∈ taskDeps →
      addDepArgs params results taskDeps args0 = .ok args →
      ¬ (d ++ "_result") ∈ params →
      lookupKey args (d ++ "_result") = lookupKey args0 (d ++ "_result") := by
  intro taskDeps
  induction taskDeps with
  | nil => intro _ _ d _ hd; cases hd
  | cons d0 ds ih =>
    intro args0 args d hnd hd h hparam
    have hd0 : d0 ∉ ds := (List.nodup_cons.mp hnd).1
    have hnd' : ds.Nodup := (List.nodup_cons.mp hnd).2
    unfold addDepArgs at h
    rcases List.mem_cons.mp hd with rfl | hd'
    · rw [if_neg hparam] at h
      refine addDepArgs_lookup_unclaimed params results ds _ args _ h ?_
      intro d' hd' hdk
      exact hd0 (string_append_right_cancel hdk ▸ hd')
    · by_cases hp : (d0 ++ "_result") ∈ params
      · rw [if_pos hp] at h
        cases hr : lookupKey results d0 with
        | none => rw [hr] at h; cases h
        | some v =>
          rw [hr] at h
          dsimp only at h
          rw [ih _ args d hnd' hd' h hparam, lookupKey_setKey, if_neg]
          intro hkk
          have : d = d0 := string_append_right_cancel hkk
          exact hd0 (this ▸ hd')
      · rw [if_neg hp] at h
        exact ih _ args d hnd' hd' h hparam

theorem addInputArgs_lookup_absent {V : Type _} (params : List String) :
    ∀ (input args : List (String × V)) (k : String),
      lookupKey input k = none →
      lookupKey (addInputArgs params input args) k = lookupKey args k := by
  intro input
  induction input with
  | nil => intro args k _; rfl
  | cons p rest ih =>
    obtain ⟨k0, v0⟩ := p
    intro args k hk
    unfold lookupKey at hk
    by_cases h0 : k0 = k
    · rw [if_pos h0] at hk; cases hk
    · rw [if_neg h0] at hk
      unfold addInputArgs
      by_cases hp : k0 ∈ params
      · rw [if_pos hp, ih _ k hk, lookupKey_setKey, if_neg (fun hh => h0 hh.symm)]
      · rw [if_neg hp]
        exact ih _ k hk

theorem addInputArgs_lookup_present {V : Type _} (params : List String) :
    ∀ (input args : List (String × V)) (k : String) (v : V),
      (input.map Prod.fst).Nodup → lookupKey input k = some v → k ∈ params →
      lookupKey (addInputArgs params input args) k = some v := by
  intro input
  induction input with
  | nil => intro args k v _ hk; cases hk
  | cons p rest ih =>
    obtain ⟨k0, v0⟩ := p
    intro args k v hnd hk hp
    have hmap := hnd
    rw [List.map_cons] at hmap
    have hk0 : k0 ∉ rest.map Prod.fst := (List.nodup_cons.mp hmap).1
    have hnd' : (rest.map Prod.fst).Nodup := (List.nodup_cons.mp hmap).2
    unfold lookupKey at hk
    by_cases h0 : k0 = k
    · rw [if_pos h0] at hk
      subst h0
      have hv : v0 = v := Option.some.inj hk
      subst hv
      unfold addInputArgs
      rw [if_pos hp]
      rw [addInputArgs_lookup_absent params rest _ k0 (lookupKey_eq_none_iff.mpr hk0),
        lookupKey_setKey, if_pos rfl]
    · rw [if_neg h0] at hk
      unfold addInputArgs
      by_cases hq : k0 ∈ params
      · rw [if_pos hq]
        exact ih _ k v hnd' hk hp
      · rw [if_neg hq]
        exact ih _ k v hnd' hk hp

theorem addInputArgs_lookup_noparam {V : Type _} (params : List String) :
    ∀ (input args : List (String × V)) (k : String), ¬ k ∈ params →
      lookupKey (addInputArgs params input args) k = lookupKey args k := by
  intro input
  induction input with
  | nil => intro args k _; rfl
  | cons p rest ih =>
    obtain ⟨k0, v0⟩ := p
    intro args k hk
    unfold addInputArgs
    by_cases hp : k0 ∈ params
    · rw [if_pos hp, ih _ k hk, lookupKey_setKey, if_neg]
      intro hh
      exact hk (hh ▸ hp)
    · rw [if_neg hp]
      exact ih _ k hk

theorem buildArgs_lookup {V : Type _} {taskDeps params : List String}
    {results input args : List (String × V)}
    (hnd : taskDeps.Nodup) (hin : (input.map Prod.fst).Nodup)
    (h : buildArgs taskDeps params results input = .ok args) :
    ∀ k, lookupKey args k = argSpec taskDeps params results input k := by
  unfold buildArgs at h
  cases hda : addDepArgs params results taskDeps [] with
  | error d => rw [hda] at h; cases h
  | ok args1 =>
    rw [hda] at h
    cases h
    intro k
    unfold argSpec
    by_cases hp : k ∈ params
    · rw [if_pos hp]
      cases hik : lookupKey input k with
      | some v =>
        exact addInputArgs_lookup_present params input args1 k v hin hik hp
      | none =>
        rw [addInputArgs_lookup_absent params input args1 k hik]
        cases hfd : taskDeps.find? (fun d => (d ++ "_result") == k) with
        | some d =>
          have hdm : d ∈ taskDeps := List.mem_of_find?_eq_some hfd
          have hdk : d ++ "_result" = k := by
            have := List.find?_some hfd
            simpa using this
          subst hdk
          exact addDepArgs_lookup_dep params results taskDeps [] args1 d hnd hdm hda hp
        | none =>
          rw [addDepArgs_lookup_unclaimed params results taskDeps [] args1 k hda ?_]
          · rfl
          · intro d hd hdk
            have := List.find?_eq_none.mp hfd d hd
            simp [hdk] at this
    · rw [if_neg hp]
      rw [addInputArgs_lookup_noparam params input args1 k hp]
      by_cases hcl : ∃ d ∈ taskDeps, d ++ "_result" = k
      · obtain ⟨d, hd, hdk⟩ := hcl
        subst hdk
        rw [addDepArgs_lookup_dep_noparam params results taskDeps [] args1 d hnd hd hda hp]
        rfl
      · push_neg at hcl
        rw [addDepArgs_lookup_unclaimed params results taskDeps [] args1 k hda hcl]
        rfl

/-! ## Execution-engine lemmas: `execLoop` -/

theorem execLoop_nil {V ε : Type _} (reg : List (String × TaskDef V ε))
    (deps : List (String × List String)) (input results : List (String × V)) :
    execLoop reg deps input [] results = (.ok results, []) := rfl

theorem execLoop_cons_unknown {V ε : Type _} {reg : List (String × TaskDef V ε)}
    (deps : List (String × List String)) (input : List (String × V))
    {t : String} (rest : List String) (results : List (String × V))
    (hr : lookupKey reg t = none) :
    execLoop reg deps input (t :: rest) results =
      (.error (.unknownTask t), []) := by
  unfold execLoop; rw [hr]

theorem execLoop_cons_nodeps {V ε : Type _} {reg : List (String × TaskDef V ε)}
    {deps : List (String × List String)} (input : List (String × V))
    {t : String} (rest : List String) (results : List (String × V))
    {td : TaskDef V ε} (hr : lookupKey reg t = some td)
    (hd : lookupKey deps t = none) :
    execLoop reg deps input (t :: rest) results =
      (.error (.keyError t), []) := by
  unfold execLoop; rw [hr]; dsimp only; rw [hd]

theorem execLoop_cons_argErr {V ε : Type _} {reg : List (String × TaskDef V ε)}
    {deps : List (String × List String)} {input : List (String × V)}
    {t : String} (rest : List String) {results : List (String × V)}
    {td : TaskDef V ε} {taskDeps : List String} {d : String}
    (hr : lookupKey reg t = some td) (hd : lookupKey deps t = some taskDeps)
    (hb : buildArgs taskDeps td.params results input = .error d) :
    execLoop reg deps input (t :: rest) results =
      (.error (.keyError d), []) := by
  unfold execLoop; rw [hr]; dsimp only; rw [hd]; dsimp only; rw [hb]

theorem execLoop_cons_fail {V ε : Type _} {reg : List (String × TaskDef V ε)}
    {deps : List (String × List String)} {input : List (String × V)}
    {t : String} (rest : List String) {results : List (String × V)}
    {td : TaskDef V ε} {taskDeps : List String} {args : List (String × V)} {e : ε}
    (hr : lookupKey reg t = some td) (hd : lookupKey deps t = some taskDeps)
    (hb : buildArgs taskDeps td.params results input = .ok args)
    (hf : td.func args = .error e) :
    execLoop reg deps input (t :: rest) results =
      (.error (.taskErr e), [⟨t, results, args⟩]) := by
  unfold execLoop; rw [hr]; dsimp only; rw [hd]; dsimp only; rw [hb]; dsimp only
  rw [hf]

theorem execLoop_cons_ok {V ε : Type _} {reg : List (String × TaskDef V ε)}
    {deps : List (String × List String)} {input : List (String × V)}
    {t : String} (rest : List String) {results : List (String × V)}
    {td : TaskDef V ε} {taskDeps : List String} {args : List (String × V)} {v : V}
    (hr : lookupKey reg t = some td) (hd : lookupKey deps t = some taskDeps)
    (hb : buildArgs taskDeps td.params results input = .ok args)
    (hf : td.func args = .ok v) :
    execLoop reg deps input (t :: rest) results =
      ((execLoop reg deps input rest (setKey results t v)).1,
        ⟨t, results, args⟩ :: (execLoop reg deps input rest (setKey results t v)).2) := by
  conv_lhs => rw [execLoop]
  rw [hr]
  dsimp only
  rw [hd]
  dsimp only
  rw [hb]
  dsimp only
  rw [hf]

/-! ## Claim C6 : the end-to-end `"ABAC"` scenario -/

/-- Claim C6: running the diamond flow with the string registry `sampleReg` and
empty input data computes `results["d"] == "ABAC"`. -/
theorem run_end_to_end_abac :
    (runFlow "flow F:\na -> b\na -> c\nb -> d\nc -> d" sampleReg []).1 =
      .ok [("a", "A"), ("b", "AB"), ("c", "AC"), ("d", "ABAC")] ∧
    lookupKey [("a", "A"), ("b", "AB"), ("c", "AC"), ("d", "ABAC")] "d" =
      some "ABAC" := by
  decide

/-! ## Scheduler lemmas: `seqVisit` -/

theorem seqVisit_ok_temp {f : String → TopoSt → Except TopoErr TopoSt}
    (hf : ∀ d s s', f d s = .ok s' → s'.temp = s.temp) :
    ∀ {ds : List String} {st st' : TopoSt},
      seqVisit f ds st = .ok st' → st'.temp = st.temp := by
  intro ds
  induction ds with
  | nil =>
    intro st st' h
    simp [seqVisit] at h
    rw [h]
  | cons d ds ih =>
    intro st st' h
    unfold seqVisit at h
    cases hf1 : f d st with
    | error e => rw [hf1] at h; cases h
    | ok st1 =>
      rw [hf1] at h
      rw [ih h, hf d st st1 hf1]

theorem seqVisit_error_ex {f : String → TopoSt → Except TopoErr TopoSt}
    (hf : ∀ d s s', f d s = .ok s' → s'.temp = s.temp) :
    ∀ {ds : List String} {st : TopoSt} {e : TopoErr},
      seqVisit f ds st = .error e →
      ∃ d st1, d ∈ ds ∧ st1.temp = st.temp ∧ f d st1 = .error e := by
  intro ds
  induction ds with
  | nil => intro st e h; simp [seqVisit] at h
  | cons d ds ih =>
    intro st e h
    unfold seqVisit at h
    cases hf1 : f d st with
    | error e' =>
      rw [hf1] at h
      cases h
      exact ⟨d, st, List.mem_cons_self d ds, rfl, hf1⟩
    | ok st1 =>
      rw [hf1] at h
      obtain ⟨d', st2, hd', htemp, herr⟩ := ih h
      exact ⟨d', st2, List.mem_cons_of_mem _ hd',
        htemp.trans (hf d st st1 hf1), herr⟩

theorem seqVisit_ok_grow {f : String → TopoSt → Except TopoErr TopoSt}
    (hf : ∀ d s s', f d s = .ok s' →
      ∃ ext, s'.visited = s.visited ++ ext ∧ s'.order = s.order ++ ext) :
    ∀ {ds : List String} {st st' : TopoSt},
      seqVisit f ds st = .ok st' →
      ∃ ext, st'.visited = st.visited ++ ext ∧ st'.order = st.order ++ ext := by
  intro ds
  induction ds with
  | nil =>
    intro st st' h
    simp [seqVisit] at h
    exact ⟨[], by simp [h]⟩
  | cons d ds ih =>
    intro st st' h
    unfold seqVisit at h
    cases hf1 : f d st with
    | error e => rw [hf1] at h; cases h
    | ok st1 =>
      rw [hf1] at h
      obtain ⟨e1, hv1, ho1⟩ := hf d st st1 hf1
      obtain ⟨e2, hv2, ho2⟩ := ih h
      exact ⟨e1 ++ e2, by rw [hv2, hv1, List.append_assoc],
        by rw [ho2, ho1, List.append_assoc]⟩

theorem seqVisit_pres (P : TopoSt → Prop)
    {f : String → TopoSt → Except TopoErr TopoSt}
    (hf : ∀ d s s', P s → f d s = .ok s' → P s') :
    ∀ {ds : List String} {st st' : TopoSt},
      P st → seqVisit f ds st = .ok st' → P st' := by
  intro ds
  induction ds with
  | nil =>
    intro st st' hP h
    simp [seqVisit] at h
    rw [← h]; exact hP
  | cons d ds ih =>
    intro st st' hP h
    unfold seqVisit at h
    cases hf1 : f d st with
    | error e => rw [hf1] at h; cases h
    | ok st1 =>
      rw [hf1] at h
      exact ih (hf d st st1 hP hf1) h

theorem seqVisit_mem_visited {f : String → TopoSt → Except TopoErr TopoSt}
    (hgrow : ∀ d s s', f d s = .ok s' →
      ∃ ext, s'.visited = s.visited ++ ext ∧ s'.order = s.order ++ ext)
    (hmem : ∀ d s s', f d s = .ok s' → d ∈ s'.visited) :
    ∀ {ds : List String} {st st' : TopoSt},
      seqVisit f ds st = .ok st' → ∀ d ∈ ds, d ∈ st'.visited := by
  intro ds
  induction ds with
  | nil => intro st st' _ d hd; cases hd
  | cons d0 ds ih =>
    intro st st' h d hd
    unfold seqVisit at h
    cases hf1 : f d0 st with
    | error e => rw [hf1] at h; cases h
    | ok st1 =>
      rw [hf1] at h
      rcases List.mem_cons.mp hd with hd' | hd'
      · subst hd'
        obtain ⟨ext, hv, _⟩ := seqVisit_ok_grow hgrow h
        rw [hv]
        exact List.mem_append_left _ (hmem d st st1 hf1)
      · exact ih h d hd'

/-! ## Scheduler lemmas: `visit` -/

theorem erase_append_singleton {l : List String} {t : String} (h : t ∉ l) :
    (l ++ [t]).erase t = l := by
  induction l with
  | nil => simp
  | cons x xs ih =>
    have hx : ¬ x = t := fun hh => h (hh ▸ List.mem_cons_self x xs)
    have hxs : t ∉ xs := fun hm => h (List.mem_cons_of_mem _ hm)
    simp [List.erase_cons, hx, ih hxs]

theorem visit_ok_temp (deps : List (String × List String)) :
    ∀ (fuel : Nat) (t : String) (st st' : TopoSt),
      visit deps fuel t st = .ok st' → st'.temp = st.temp := by
  intro fuel
  induction fuel with
  | zero => intro t st st' h; cases h
  | succ fuel ih =>
    intro t st st' h
    unfold visit at h
    by_cases h1 : t ∈ st.temp
    · rw [if_pos h1] at h; cases h
    · rw [if_neg h1] at h
      by_cases h2 : t ∈ st.visited
      · rw [if_pos h2] at h; cases h; rfl
      · rw [if_neg h2] at h
        cases hl : lookupKey deps t with
        | none => rw [hl] at h; cases h
        | some ds =>
          rw [hl] at h
          dsimp only at h
          cases hs : seqVisit (visit deps fuel) ds { st with temp := st.temp ++ [t] } with
          | error e => rw [hs] at h; cases h
          | ok st2 =>
            rw [hs] at h
            cases h
            have htemp : st2.temp = st.temp ++ [t] :=
              seqVisit_ok_temp (fun d s s' => ih d s s') hs
            show st2.temp.erase t = st.temp
            rw [htemp, erase_append_singleton h1]

theorem visit_ok_grow (deps : List (String × List String)) :
    ∀ (fuel : Nat) (t : String) (st st' : TopoSt),
      visit deps fuel t st = .ok st' →
      ∃ ext, st'.visited = st.visited ++ ext ∧ st'.order = st.order ++ ext := by
  intro fuel
  induction fuel with
  | zero => intro t st st' h; cases h
  | succ fuel ih =>
    intro t st st' h
    unfold visit at h
    by_cases h1 : t ∈ st.temp
    · rw [if_pos h1] at h; cases h
    · rw [if_neg h1] at h
      by_cases h2 : t ∈ st.visited
      · rw [if_pos h2] at h; cases h; exact ⟨[], by simp⟩
      · rw [if_neg h2] at h
        cases hl : lookupKey deps t with
        | none => rw [hl] at h; cases h
        | some ds =>
          rw [hl] at h
          dsimp only at h
          cases hs : seqVisit (visit deps fuel) ds { st with temp := st.temp ++ [t] } with
          | error e => rw [hs] at h; cases h
          | ok st2 =>
            rw [hs] at h
            cases h
            obtain ⟨ext, hv, ho⟩ := seqVisit_ok_grow (fun d s s' => ih d s s') hs
            exact ⟨ext ++ [t], by simp [hv, ho]⟩

theorem visit_ok_mem (deps : List (String × List String)) :
    ∀ (fuel : Nat) (t : String) (st st' : TopoSt),
      visit deps fuel t st = .ok st' → t ∈ st'.visited := by
  intro fuel t st st' h
  cases fuel with
  | zero => cases h
  | succ fuel =>
    unfold visit at h
    by_cases h1 : t ∈ st.temp
    · rw [if_pos h1] at h; cases h
    · rw [if_neg h1] at h
      by_cases h2 : t ∈ st.visited
      · rw [if_pos h2] at h; cases h; exact h2
      · rw [if_neg h2] at h
        cases hl : lookupKey deps t with
        | none => rw [hl] at h; cases h
        | some ds =>
          rw [hl] at h
          dsimp only at h
          cases hs : seqVisit (visit deps fuel) ds { st with temp := st.temp ++ [t] } with
          | error e => rw [hs] at h; cases h
          | ok st2 =>
            rw [hs] at h
            cases h
            show t ∈ st2.visited ++ [t]
            simp

theorem closedDeps_lookup {deps : List (String × List String)}
    (hC : closedDeps deps) {t : String} {ds : List String}
    (hl : lookupKey deps t = some ds) : ∀ d ∈ ds, d ∈ deps.map Prod.fst :=
  hC (t, ds) (lookupKey_mem hl)

theorem append_singleton_eq {α : Type _} :
    ∀ (l1 : List α) (u : α) (l2 l : List α) (t : α), l ++ [t] = l1 ++ u :: l2 →
      (l1 = l ∧ u = t ∧ l2 = []) ∨
        ∃ l2', l2 = l2' ++ [t] ∧ l = l1 ++ u :: l2' := by
  intro l1
  induction l1 with
  | nil =>
    intro u l2 l t h
    simp only [List.nil_append] at h
    cases l with
    | nil =>
      simp only [List.nil_append] at h
      injection h with h1 h2
      exact Or.inl ⟨rfl, h1.symm, h2.symm⟩
    | cons x l' =>
      rw [List.cons_append] at h
      injection h with h1 h2
      exact Or.inr ⟨l', h2.symm, by rw [List.nil_append, h1]⟩
  | cons y l1' ih =>
    intro u l2 l t h
    cases l with
    | nil =>
      simp only [List.nil_append, List.cons_append] at h
      injection h with h1 h2
      exact absurd h2.symm (List.append_ne_nil_of_right_ne_nil _ (List.cons_ne_nil u l2))
    | cons x l' =>
      rw [List.cons_append, List.cons_append] at h
      injection h with h1 h2
      rcases ih u l2 l' t h2 with ⟨ha, hb, hc⟩ | ⟨l2', hl2, hl⟩
      · exact Or.inl ⟨by rw [ha, h1], hb, hc⟩
      · exact Or.inr ⟨l2', hl2, by rw [hl, h1]; rfl⟩

theorem OrdOK_append {deps : List (String × List String)} {l : List String}
    {t : String} (h : OrdOK deps l)
    (hdeps : ∀ v, depOn deps t v → v ∈ l) : OrdOK deps (l ++ [t]) := by
  intro l1 u l2 hsplit v hv
  rcases append_singleton_eq l1 u l2 l t hsplit with ⟨h1, h2, _⟩ | ⟨l2', _, hl⟩
  · subst h1; subst h2
    exact hdeps v hv
  · exact h l1 u l2' hl v hv

theorem seqVisit_pres_mem (P : TopoSt → Prop)
    {f : String → TopoSt → Except TopoErr TopoSt} :
    ∀ {ds : List String} {st st' : TopoSt},
      (∀ d ∈ ds, ∀ s s', P s → f d s = .ok s' → P s') →
      P st → seqVisit f ds st = .ok st' → P st' := by
  intro ds
  induction ds with
  | nil =>
    intro st st' _ hP h
    simp [seqVisit] at h
    rw [← h]; exact hP
  | cons d ds ih =>
    intro st st' hf hP h
    unfold seqVisit at h
    cases hf1 : f d st with
    | error e => rw [hf1] at h; cases h
    | ok st1 =>
      rw [hf1] at h
      exact ih (fun d' hd' => hf d' (List.mem_cons_of_mem _ hd'))
        (hf d (List.mem_cons_self d ds) st st1 hP hf1) h

theorem visit_good (deps : List (String × List String)) :
    ∀ (fuel : Nat) (t : String) (st st' : TopoSt),
      GoodSt deps st → visit deps fuel t st = .ok st' → GoodSt deps st' := by
  intro fuel
  induction fuel with
  | zero => intro t st st' _ h; cases h
  | succ fuel ih =>
    intro t st st' hG h
    unfold visit at h
    by_cases h1 : t ∈ st.temp
    · rw [if_pos h1] at h; cases h
    · rw [if_neg h1] at h
      by_cases h2 : t ∈ st.visited
      · rw [if_pos h2] at h; cases h; exact hG
      · rw [if_neg h2] at h
        cases hl : lookupKey deps t with
        | none => rw [hl] at h; cases h
        | some ds =>
          rw [hl] at h
          dsimp only at h
          cases hs : seqVisit (visit deps fuel) ds { st with temp := st.temp ++ [t] } with
          | error e => rw [hs] at h; cases h
          | ok st2 =>
            rw [hs] at h
            cases h
            have hG1 : GoodSt deps { st with temp := st.temp ++ [t] } := by
              obtain ⟨ho, hn, hdisj, hord⟩ := hG
              refine ⟨ho, hn, ?_, hord⟩
              intro x hx
              rcases List.mem_append.mp hx with hx | hx
              · exact hdisj x hx
              · have : x = t := List.mem_singleton.mp hx
                subst this; exact h2
            have hG2 : GoodSt deps st2 :=
              seqVisit_pres (GoodSt deps) (fun d s s' hp hh => ih d s s' hp hh) hG1 hs
            have htemp2 : st2.temp = st.temp ++ [t] :=
              seqVisit_ok_temp (fun d s s' => visit_ok_temp deps fuel d s s') hs
            have htmem : t ∈ st2.temp := by rw [htemp2]; simp
            obtain ⟨ho2, hn2, hdisj2, hord2⟩ := hG2
            have htv : t ∉ st2.visited := hdisj2 t htmem
            refine ⟨?_, ?_, ?_, ?_⟩
            · show st2.order ++ [t] = st2.visited ++ [t]
              rw [ho2]
            · show (st2.visited ++ [t]).Nodup
              rw [List.nodup_append]
              exact ⟨hn2, List.nodup_singleton t,
                fun a ha ha' => htv ((List.mem_singleton.mp ha') ▸ ha)⟩
            · show ∀ x ∈ st2.temp.erase t, x ∉ st2.visited ++ [t]
              intro x hx
              rw [htemp2, erase_append_singleton h1] at hx
              have hxv : x ∉ st2.visited := hdisj2 x (by rw [htemp2]; exact List.mem_append_left _ hx)
              have hxt : ¬ x = t := fun hh => h1 (hh ▸ hx)
              simp [List.mem_append, hxv, hxt]
            · show OrdOK deps (st2.visited ++ [t])
              apply OrdOK_append hord2
              intro v hv
              obtain ⟨ds', hds', hmem⟩ := hv
              have hde : ds' = ds := by
                rw [hl] at hds'
                exact (Option.some.inj hds').symm
              subst hde
              exact seqVisit_mem_visited (fun d s s' => visit_ok_grow deps fuel d s s')
                (fun d s s' => visit_ok_mem deps fuel d s s') hs v hmem

theorem visit_visited_sub (deps : List (String × List String))
    (hC : closedDeps deps) :
    ∀ (fuel : Nat) (t : String) (st st' : TopoSt),
      t ∈ deps.map Prod.fst → (∀ x ∈ st.visited, x ∈ deps.map Prod.fst) →
      visit deps fuel t st = .ok st' → ∀ x ∈ st'.visited, x ∈ deps.map Prod.fst := by
  intro fuel
  induction fuel with
  | zero => intro t st st' _ _ h; cases h
  | succ fuel ih =>
    intro t st st' ht hsub h
    unfold visit at h
    by_cases h1 : t ∈ st.temp
    · rw [if_pos h1] at h; cases h
    · rw [if_neg h1] at h
      by_cases h2 : t ∈ st.visited
      · rw [if_pos h2] at h; cases h; exact hsub
      · rw [if_neg h2] at h
        cases hl : lookupKey deps t with
        | none => rw [hl] at h; cases h
        | some ds =>
          rw [hl] at h
          dsimp only at h
          cases hs : seqVisit (visit deps fuel) ds { st with temp := st.temp ++ [t] } with
          | error e => rw [hs] at h; cases h
          | ok st2 =>
            rw [hs] at h
            cases h
            have hsub2 : ∀ x ∈ st2.visited, x ∈ deps.map Prod.fst := by
              refine seqVisit_pres_mem
                (fun s => ∀ x ∈ s.visited, x ∈ deps.map Prod.fst) ?_ ?_ hs
              · intro d hd s s' hp hh
                exact ih d s s' (closedDeps_lookup hC hl d hd) hp hh
              · exact hsub
            intro x hx
            rcases List.mem_append.mp hx with hx | hx
            · exact hsub2 x hx
            · exact (List.mem_singleton.mp hx) ▸ ht

theorem visit_no_keyError (deps : List (String × List String))
    (hC : closedDeps deps) :
    ∀ (fuel : Nat) (t : String) (st : TopoSt) (k : String),
      t ∈ deps.map Prod.fst → visit deps fuel t st ≠ .error (.keyError k) := by
  intro fuel
  induction fuel with
  | zero => intro t st k _ h; cases h
  | succ fuel ih =>
    intro t st k ht h
    unfold visit at h
    by_cases h1 : t ∈ st.temp
    · rw [if_pos h1] at h; cases h
    · rw [if_neg h1] at h
      by_cases h2 : t ∈ st.visited
      · rw [if_pos h2] at h; cases h
      · rw [if_neg h2] at h
        cases hl : lookupKey deps t with
        | none =>
          exact absurd (lookupKey_eq_none_iff.mp hl) (by simpa using ht)
        | some ds =>
          rw [hl] at h
          dsimp only at h
          cases hs : seqVisit (visit deps fuel) ds { st with temp := st.temp ++ [t] } with
          | error e =>
            rw [hs] at h
            cases h
            obtain ⟨d, st1, hd, _, herr⟩ :=
              seqVisit_error_ex (fun d s s' => visit_ok_temp deps fuel d s s') hs
            exact ih d st1 k (closedDeps_lookup hC hl d hd) herr
          | ok st2 => rw [hs] at h; cases h

theorem visit_no_fuelOut (deps : List (String × List String))
    (hC : closedDeps deps) :
    ∀ (fuel : Nat) (t : String) (st : TopoSt),
      TempOK deps st → t ∈ deps.map Prod.fst →
      (deps.map Prod.fst).length < fuel + st.temp.length →
      visit deps fuel t st ≠ .error .fuelOut := by
  intro fuel
  induction fuel with
  | zero =>
    intro t st hT ht hbound h
    obtain ⟨hnd, hsub⟩ := hT
    have hle : st.temp.length ≤ (deps.map Prod.fst).length :=
      List.Subperm.length_le (List.subperm_of_subset hnd (fun x hx => hsub x hx))
    omega
  | succ fuel ih =>
    intro t st hT ht hbound h
    unfold visit at h
    by_cases h1 : t ∈ st.temp
    · rw [if_pos h1] at h; cases h
    · rw [if_neg h1] at h
      by_cases h2 : t ∈ st.visited
      · rw [if_pos h2] at h; cases h
      · rw [if_neg h2] at h
        cases hl : lookupKey deps t with
        | none => rw [hl] at h; cases h
        | some ds =>
          rw [hl] at h
          dsimp only at h
          cases hs : seqVisit (visit deps fuel) ds { st with temp := st.temp ++ [t] } with
          | error e =>
            rw [hs] at h
            cases h
            obtain ⟨d, st1, hd, htemp1, herr⟩ :=
              seqVisit_error_ex (fun d s s' => visit_ok_temp deps fuel d s s') hs
            have htemp1' : st1.temp = st.temp ++ [t] := htemp1
            refine ih d st1 ⟨?_, ?_⟩ (closedDeps_lookup hC hl d hd) ?_ herr
            · rw [htemp1']
              rw [List.nodup_append]
              exact ⟨hT.1, List.nodup_singleton t,
                fun a ha ha' => h1 ((List.mem_singleton.mp ha') ▸ ha)⟩
            · rw [htemp1']
              intro x hx
              rcases List.mem_append.mp hx with hx | hx
              · exact hT.2 x hx
              · exact (List.mem_singleton.mp hx) ▸ ht
            · rw [htemp1', List.length_append, List.length_singleton]
              omega
          | ok st2 => rw [hs] at h; cases h

theorem getLastQ_append_singleton {α : Type _} (l : List α) (t : α) :
    (l ++ [t]).getLast? = some t := by
  induction l with
  | nil => rfl
  | cons x xs ih =>
    rw [List.cons_append]
    cases hxs : xs ++ [t] with
    | nil => exact absurd hxs (by simp)
    | cons y l' =>
      rw [List.getLast?_cons_cons, ← hxs]
      exact ih

theorem chain'_reflTransGen_getLastQ {R : String → String → Prop} :
    ∀ (l : List String), List.Chain' R l → ∀ x ∈ l, ∀ y, l.getLast? = some y →
      Relation.ReflTransGen R x y := by
  intro l
  induction l with
  | nil => intro _ x hx; cases hx
  | cons a rest ih =>
    intro hch x hx y hy
    cases rest with
    | nil =>
      have hxa : x = a := by simpa using hx
      have hya : y = a := by
        have : some a = some y := hy
        exact (Option.some.inj this).symm
      subst hxa; subst hya
      exact Relation.ReflTransGen.refl
    | cons b rest' =>
      have hR : R a b := (List.chain'_cons.mp hch).1
      have hch' := (List.chain'_cons.mp hch).2
      rw [List.getLast?_cons_cons] at hy
      rcases List.mem_cons.mp hx with hxa | hx'
      · subst hxa
        exact Relation.ReflTransGen.head hR
          (ih hch' b (List.mem_cons_self b rest') y hy)
      · exact ih hch' x hx' y hy

theorem visit_circular_cycle (deps : List (String × List String)) :
    ∀ (fuel : Nat) (t : String) (st : TopoSt) (c : String),
      List.Chain' (depOn deps) st.temp →
      (∀ x, st.temp.getLast? = some x → depOn deps x t) →
      visit deps fuel t st = .error (.circular c) →
      Relation.TransGen (depOn deps) c c := by
  intro fuel
  induction fuel with
  | zero => intro t st c _ _ h; cases h
  | succ fuel ih =>
    intro t st c hch hlink h
    unfold visit at h
    by_cases h1 : t ∈ st.temp
    · rw [if_pos h1] at h
      cases h
      have hne : st.temp ≠ [] := List.ne_nil_of_mem h1
      have hlq : st.temp.getLast? = some (st.temp.getLast hne) :=
        List.getLast?_eq_getLast_of_ne_nil hne
      exact Relation.TransGen.tail'
        (chain'_reflTransGen_getLastQ st.temp hch t h1 _ hlq)
        (hlink _ hlq)
    · rw [if_neg h1] at h
      by_cases h2 : t ∈ st.visited
      · rw [if_pos h2] at h; cases h
      · rw [if_neg h2] at h
        cases hl : lookupKey deps t with
        | none => rw [hl] at h; cases h
        | some ds =>
          rw [hl] at h
          dsimp only at h
          cases hs : seqVisit (visit deps fuel) ds { st with temp := st.temp ++ [t] } with
          | error e =>
            rw [hs] at h
            cases h
            obtain ⟨d, st1, hd, htemp1, herr⟩ :=
              seqVisit_error_ex (fun d s s' => visit_ok_temp deps fuel d s s') hs
            have htemp1' : st1.temp = st.temp ++ [t] := htemp1
            refine ih d st1 c ?_ ?_ herr
            · rw [htemp1']
              rw [List.chain'_append]
              refine ⟨hch, List.chain'_singleton t, ?_⟩
              intro x hx y hyy
              have hyt : t = y := by simpa using hyy
              subst hyt
              exact hlink x hx
            · intro x hx
              rw [htemp1', getLastQ_append_singleton] at hx
              have hxt : x = t := (Option.some.inj hx).symm
              subst hxt
              exact ⟨ds, hl, hd⟩
          | ok st2 => rw [hs] at h; cases h

/-! ## Scheduler lemmas: `topoLoop` and `topoSort` -/

theorem topoLoop_ok_temp (deps : List (String × List String)) (fuel : Nat) :
    ∀ (ts : List String) (st st' : TopoSt),
      topoLoop deps fuel ts st = .ok st' → st'.temp = st.temp := by
  intro ts
  induction ts with
  | nil => intro st st' h; simp [topoLoop] at h; rw [h]
  | cons t ts ih =>
    intro st st' h
    unfold topoLoop at h
    by_cases hv : t ∈ st.visited
    · rw [if_pos hv] at h; exact ih st st' h
    · rw [if_neg hv] at h
      cases hvis : visit deps fuel t st with
      | error e => rw [hvis] at h; cases h
      | ok st2 =>
        rw [hvis] at h
        exact (ih st2 st' h).trans (visit_ok_temp deps fuel t st st2 hvis)

theorem topoLoop_good (deps : List (String × List String)) (fuel : Nat) :
    ∀ (ts : List String) (st st' : TopoSt),
      GoodSt deps st → topoLoop deps fuel ts st = .ok st' → GoodSt deps st' := by
  intro ts
  induction ts with
  | nil => intro st st' hG h; simp [topoLoop] at h; rw [← h]; exact hG
  | cons t ts ih =>
    intro st st' hG h
    unfold topoLoop at h
    by_cases hv : t ∈ st.visited
    · rw [if_pos hv] at h; exact ih st st' hG h
    · rw [if_neg hv] at h
      cases hvis : visit deps fuel t st with
      | error e => rw [hvis] at h; cases h
      | ok st2 =>
        rw [hvis] at h
        exact ih st2 st' (visit_good deps fuel t st st2 hG hvis) h

theorem topoLoop_grow (deps : List (String × List String)) (fuel : Nat) :
    ∀ (ts : List String) (st st' : TopoSt),
      topoLoop deps fuel ts st = .ok st' →
      ∃ ext, st'.visited = st.visited ++ ext := by
  intro ts
  induction ts with
  | nil => intro st st' h; simp [topoLoop] at h; exact ⟨[], by simp [h]⟩
  | cons t ts ih =>
    intro st st' h
    unfold topoLoop at h
    by_cases hv : t ∈ st.visited
    · rw [if_pos hv] at h; exact ih st st' h
    · rw [if_neg hv] at h
      cases hvis : visit deps fuel t st with
      | error e => rw [hvis] at h; cases h
      | ok st2 =>
        rw [hvis] at h
        obtain ⟨e1, he1, _⟩ := visit_ok_grow deps fuel t st st2 hvis
        obtain ⟨e2, he2⟩ := ih st2 st' h
        exact ⟨e1 ++ e2, by rw [he2, he1, List.append_assoc]⟩

theorem topoLoop_complete (deps : List (String × List String)) (fuel : Nat) :
    ∀ (ts : List String) (st st' : TopoSt),
      topoLoop deps fuel ts st = .ok st' → ∀ t ∈ ts, t ∈ st'.visited := by
  intro ts
  induction ts with
  | nil => intro st st' _ t ht; cases ht
  | cons t0 ts ih =>
    intro st st' h t ht
    unfold topoLoop at h
    by_cases hv : t0 ∈ st.visited
    · rw [if_pos hv] at h
      rcases List.mem_cons.mp ht with rfl | ht'
      · obtain ⟨ext, hext⟩ := topoLoop_grow deps fuel ts st st' h
        rw [hext]; exact List.mem_append_left _ hv
      · exact ih st st' h t ht'
    · rw [if_neg hv] at h
      cases hvis : visit deps fuel t0 st with
      | error e => rw [hvis] at h; cases h
      | ok st2 =>
        rw [hvis] at h
        rcases List.mem_cons.mp ht with rfl | ht'
        · obtain ⟨ext, hext⟩ := topoLoop_grow deps fuel ts st2 st' h
          rw [hext]
          exact List.mem_append_left _ (visit_ok_mem deps fuel t st st2 hvis)
        · exact ih st2 st' h t ht'

theorem topoLoop_visited_sub (deps : List (String × List String))
    (hC : closedDeps deps) (fuel : Nat) :
    ∀ (ts : List String) (st st' : TopoSt),
      (∀ t ∈ ts, t ∈ deps.map Prod.fst) →
      (∀ x ∈ st.visited, x ∈ deps.map Prod.fst) →
      topoLoop deps fuel ts st = .ok st' →
      ∀ x ∈ st'.visited, x ∈ deps.map Prod.fst := by
  intro ts
  induction ts with
  | nil => intro st st' _ hsub h; simp [topoLoop] at h; rw [← h]; exact hsub
  | cons t ts ih =>
    intro st st' hts hsub h
    unfold topoLoop at h
    by_cases hv : t ∈ st.visited
    · rw [if_pos hv] at h
      exact ih st st' (fun u hu => hts u (List.mem_cons_of_mem _ hu)) hsub h
    · rw [if_neg hv] at h
      cases hvis : visit deps fuel t st with
      | error e => rw [hvis] at h; cases h
      | ok st2 =>
        rw [hvis] at h
        exact ih st2 st' (fun u hu => hts u (List.mem_cons_of_mem _ hu))
          (visit_visited_sub deps hC fuel t st st2
            (hts t (List.mem_cons_self t ts)) hsub hvis) h

theorem topoLoop_no_keyError (deps : List (String × List String))
    (hC : closedDeps deps) (fuel : Nat) :
    ∀ (ts : List String) (st : TopoSt) (k : String),
      (∀ t ∈ ts, t ∈ deps.map Prod.fst) →
      topoLoop deps fuel ts st ≠ .error (.keyError k) := by
  intro ts
  induction ts with
  | nil => intro st k _ h; simp [topoLoop] at h
  | cons t ts ih =>
    intro st k hts h
    unfold topoLoop at h
    by_cases hv : t ∈ st.visited
    · rw [if_pos hv] at h
      exact ih st k (fun u hu => hts u (List.mem_cons_of_mem _ hu)) h
    · rw [if_neg hv] at h
      cases hvis : visit deps fuel t st with
      | error e =>
        rw [hvis] at h
        cases h
        exact visit_no_keyError deps hC fuel t st k
          (hts t (List.mem_cons_self t ts)) hvis
      | ok st2 =>
        rw [hvis] at h
        exact ih st2 k (fun u hu => hts u (List.mem_cons_of_mem _ hu)) h

theorem topoLoop_no_fuelOut (deps : List (String × List String))
    (hC : closedDeps deps) (fuel : Nat) :
    ∀ (ts : List String) (st : TopoSt),
      (∀ t ∈ ts, t ∈ deps.map Prod.fst) → st.temp = [] →
      (deps.map Prod.fst).length < fuel →
      topoLoop deps fuel ts st ≠ .error .fuelOut := by
  intro ts
  induction ts with
  | nil => intro st _ _ _ h; simp [topoLoop] at h
  | cons t ts ih =>
    intro st hts htemp hfuel h
    unfold topoLoop at h
    by_cases hv : t ∈ st.visited
    · rw [if_pos hv] at h
      exact ih st (fun u hu => hts u (List.mem_cons_of_mem _ hu)) htemp hfuel h
    · rw [if_neg hv] at h
      cases hvis : visit deps fuel t st with
      | error e =>
        rw [hvis] at h
        cases h
        refine visit_no_fuelOut deps hC fuel t st ⟨?_, ?_⟩
          (hts t (List.mem_cons_self t ts)) ?_ hvis
        · rw [htemp]; exact List.nodup_nil
        · rw [htemp]; intro x hx; cases hx
        · rw [htemp]; simpa using hfuel
      | ok st2 =>
        rw [hvis] at h
        exact ih st2 (fun u hu => hts u (List.mem_cons_of_mem _ hu))
          ((visit_ok_temp deps fuel t st st2 hvis).trans htemp) hfuel h

theorem topoLoop_circular (deps : List (String × List String)) (fuel : Nat) :
    ∀ (ts : List String) (st : TopoSt) (c : String), st.temp = [] →
      topoLoop deps fuel ts st = .error (.circular c) →
      Relation.TransGen (depOn deps) c c := by
  intro ts
  induction ts with
  | nil => intro st c _ h; simp [topoLoop] at h
  | cons t ts ih =>
    intro st c htemp h
    unfold topoLoop at h
    by_cases hv : t ∈ st.visited
    · rw [if_pos hv] at h; exact ih st c htemp h
    · rw [if_neg hv] at h
      cases hvis : visit deps fuel t st with
      | error e =>
        rw [hvis] at h
        cases h
        refine visit_circular_cycle deps fuel t st c ?_ ?_ hvis
        · rw [htemp]; exact List.chain'_nil
        · intro x hx; rw [htemp] at hx; cases hx
      | ok st2 =>
        rw [hvis] at h
        exact ih st2 c ((visit_ok_temp deps fuel t st st2 hvis).trans htemp) h

theorem initTopoSt_good (deps : List (String × List String)) :
    GoodSt deps ⟨[], [], []⟩ := by
  refine ⟨rfl, List.nodup_nil, ?_, ?_⟩
  · intro x hx; cases hx
  · intro l1 u l2 hsp v _
    exact absurd hsp.symm (List.append_ne_nil_of_right_ne_nil _ (List.cons_ne_nil u l2))

theorem topoSort_ok_strong {deps : List (String × List String)}
    {ord : List String} (h : topoSort deps = .ok ord) :
    ord.Nodup ∧ OrdOK deps ord ∧ ∀ t ∈ deps.map Prod.fst, t ∈ ord := by
  unfold topoSort at h
  cases hres : topoLoop deps (deps.length + 1) (deps.map Prod.fst) ⟨[], [], []⟩ with
  | error e => rw [hres] at h; cases h
  | ok st =>
    rw [hres] at h
    cases h
    obtain ⟨ho, hn, _, hord⟩ :=
      topoLoop_good deps (deps.length + 1) _ _ st (initTopoSt_good deps) hres
    refine ⟨ho ▸ hn, ho ▸ hord, ?_⟩
    intro t ht
    rw [ho]
    exact topoLoop_complete deps (deps.length + 1) _ _ st hres t ht

theorem topoSort_ok_sub {deps : List (String × List String)}
    (hC : closedDeps deps) {ord : List String} (h : topoSort deps = .ok ord) :
    ∀ t ∈ ord, t ∈ deps.map Prod.fst := by
  unfold topoSort at h
  cases hres : topoLoop deps (deps.length + 1) (deps.map Prod.fst) ⟨[], [], []⟩ with
  | error e => rw [hres] at h; cases h
  | ok st =>
    rw [hres] at h
    cases h
    obtain ⟨ho, _, _, _⟩ :=
      topoLoop_good deps (deps.length + 1) _ _ st (initTopoSt_good deps) hres
    intro t ht
    rw [ho] at ht
    refine topoLoop_visited_sub deps hC (deps.length + 1) _ _ st
      (fun u hu => hu) ?_ hres t ht
    intro x hx; cases hx

theorem topoSort_circular_cycle {deps : List (String × List String)}
    {c : String} (h : topoSort deps = .error (.circular c)) :
    Relation.TransGen (depOn deps) c c := by
  unfold topoSort at h
  cases hres : topoLoop deps (deps.length + 1) (deps.map Prod.fst) ⟨[], [], []⟩ with
  | error e =>
    rw [hres] at h
    cases h
    exact topoLoop_circular deps (deps.length + 1) _ _ c rfl hres
  | ok st => rw [hres] at h; cases h

theorem topoSort_ne_keyError {deps : List (String × List String)}
    (hC : closedDeps deps) (k : String) :
    topoSort deps ≠ .error (.keyError k) := by
  intro h
  unfold topoSort at h
  cases hres : topoLoop deps (deps.length + 1) (deps.map Prod.fst) ⟨[], [], []⟩ with
  | error e =>
    rw [hres] at h
    cases h
    exact topoLoop_no_keyError deps hC (deps.length + 1) _ _ k (fun u hu => hu) hres
  | ok st => rw [hres] at h; cases h

theorem topoSort_ne_fuelOut {deps : List (String × List String)}
    (hC : closedDeps deps) : topoSort deps ≠ .error .fuelOut := by
  intro h
  unfold topoSort at h
  cases hres : topoLoop deps (deps.length + 1) (deps.map Prod.fst) ⟨[], [], []⟩ with
  | error e =>
    rw [hres] at h
    cases h
    refine topoLoop_no_fuelOut deps hC (deps.length + 1) _ _ (fun u hu => hu) rfl ?_ hres
    simp
  | ok st => rw [hres] at h; cases h

theorem indexOf_lt_of_split {l : List String} (hnd : l.Nodup) :
    ∀ (l1 : List String) (u : String) (l2 : List String) (v : String),
      l = l1 ++ u :: l2 → v ∈ l1 → l.indexOf v < l.indexOf u := by
  intro l1 u l2 v hsp hv
  subst hsp
  have hu1 : u ∉ l1 := by
    rw [List.nodup_append] at hnd
    exact fun hu => hnd.2.2 hu (List.mem_cons_self u l2)
  rw [List.indexOf_append_of_mem hv, List.indexOf_append_of_not_mem hu1,
    List.indexOf_cons_self]
  have := List.indexOf_lt_length.mpr hv
  omega

theorem topoSort_topological {deps : List (String × List String)}
    {ord : List String} (h : topoSort deps = .ok ord) :
    ∀ u v, depOn deps u v → ord.indexOf v < ord.indexOf u := by
  intro u v huv
  obtain ⟨hnd, hord, hcompl⟩ := topoSort_ok_strong h
  have hu : u ∈ deps.map Prod.fst := by
    obtain ⟨ds, hds, _⟩ := huv
    exact lookupKey_isSome_iff.mp (by rw [hds]; rfl)
  obtain ⟨l1, l2, hsp⟩ := List.append_of_mem (hcompl u hu)
  exact indexOf_lt_of_split hnd l1 u l2 v hsp (hord l1 u l2 hsp v huv)

theorem acyclic_of_topoSort_ok {deps : List (String × List String)}
    {ord : List String} (h : topoSort deps = .ok ord) : Acyclic deps := by
  intro t hcyc
  have hlt : ∀ a b, Relation.TransGen (depOn deps) a b →
      ord.indexOf b < ord.indexOf a := by
    intro a b hab
    induction hab with
    | single h1 => exact topoSort_topological h _ _ h1
    | tail _ h1 ih => exact lt_trans (topoSort_topological h _ _ h1) ih
  exact absurd (hlt t t hcyc) (lt_irrefl _)

/-! ## Claim C2 : topological validity of the scheduler -/

/-- Claim C2: for every well-formed acyclic dependency map the scheduler
succeeds, returning an order that contains each task exactly once
(duplicate-free and co-extensive with the key set) and in which every
task appears strictly after all of its dependencies
(`index v < index u` for every `u` depending on `v`). -/
theorem scheduler_topological_order (deps : List (String × List String))
    (hC : closedDeps deps) (hA : Acyclic deps) :
    ∃ ord, topoSort deps = .ok ord ∧ ord.Nodup ∧
      (∀ t, t ∈ ord ↔ t ∈ deps.map Prod.fst) ∧
      ∀ u v, depOn deps u v → ord.indexOf v < ord.indexOf u := by
  cases hres : topoSort deps with
  | ok ord =>
    obtain ⟨hnd, _, hcompl⟩ := topoSort_ok_strong hres
    refine ⟨ord, rfl, hnd, ?_, topoSort_topological hres⟩
    intro t
    exact ⟨fun ht => topoSort_ok_sub hC hres t ht, fun ht => hcompl t ht⟩
  | error e =>
    cases e with
    | circular c => exact absurd (topoSort_circular_cycle hres) (hA c)
    | keyError k => exact absurd hres (topoSort_ne_keyError hC k)
    | fuelOut => exact absurd hres (topoSort_ne_fuelOut hC)

theorem scheduler_topological_order_witness :
    closedDeps [("a", []), ("b", ["a"]), ("c", ["a", "b"])] ∧
    Acyclic [("a", []), ("b", ["a"]), ("c", ["a", "b"])] ∧
    ∃ ord, topoSort [("a", []), ("b", ["a"]), ("c", ["a", "b"])] = .ok ord ∧
      ord.Nodup ∧
      (∀ t, t ∈ ord ↔
        t ∈ ([("a", ([] : List String)), ("b", ["a"]),
              ("c", ["a", "b"])].map Prod.fst)) ∧
      ∀ u v, depOn [("a", []), ("b", ["a"]), ("c", ["a", "b"])] u v →
        ord.indexOf v < ord.indexOf u := by
  have hC : closedDeps [("a", []), ("b", ["a"]), ("c", ["a", "b"])] := by
    unfold closedDeps; decide
  have hA : Acyclic [("a", []), ("b", ["a"]), ("c", ["a", "b"])] :=
    acyclic_of_topoSort_ok
      (by decide : topoSort [("a", []), ("b", ["a"]), ("c", ["a", "b"])] =
        .ok ["a", "b", "c"])
  exact ⟨hC, hA, scheduler_topological_order _ hC hA⟩

/-! ## Claim C3 : cycle detection -/

/-- Claim C3: for every well-formed cyclic dependency map the scheduler fails
with the circular-dependency `ValueError` naming a task `c` that lies
on a cycle; no order is returned; and any `run_flow_from_dsl` call
whose parsed flow builds exactly this dependency map fails with that
error and an empty invocation trace — the error surfaces before any
task executes. -/
theorem scheduler_cycle_error (deps : List (String × List String))
    (hC : closedDeps deps)
    (hcyc : ∃ t, Relation.TransGen (depOn deps) t t) :
    ∃ c, topoSort deps = .error (.circular c) ∧
      Relation.TransGen (depOn deps) c c ∧
      (∀ ord, topoSort deps ≠ .ok ord) ∧
      ∀ (V ε : Type) (dsl : String) (reg : List (String × TaskDef V ε))
        (input : List (String × V)) (fd : FlowData),
        parse_dsl dsl = .ok fd → buildDeps fd = .ok deps →
        runFlow dsl reg input = (.error (.circular c), []) := by
  cases hres : topoSort deps with
  | ok ord =>
    obtain ⟨t, ht⟩ := hcyc
    exact absurd ht (acyclic_of_topoSort_ok hres t)
  | error e =>
    cases e with
    | circular c =>
      refine ⟨c, rfl, topoSort_circular_cycle hres, ?_, ?_⟩
      · intro ord hord
        cases hord
      · intro V e dsl reg input fd hp hb
        unfold runFlow
        rw [hp]
        dsimp only
        rw [hb]
        dsimp only
        rw [hres]
    | keyError k => exact absurd hres (topoSort_ne_keyError hC k)
    | fuelOut => exact absurd hres (topoSort_ne_fuelOut hC)

theorem scheduler_cycle_error_witness :
    closedDeps [("x", ["y"]), ("y", ["x"])] ∧
    (∃ t, Relation.TransGen (depOn [("x", ["y"]), ("y", ["x"])]) t t) ∧
    ∃ c, topoSort [("x", ["y"]), ("y", ["x"])] = .error (.circular c) ∧
      Relation.TransGen (depOn [("x", ["y"]), ("y", ["x"])]) c c ∧
      (∀ ord, topoSort [("x", ["y"]), ("y", ["x"])] ≠ .ok ord) ∧
      ∀ (V ε : Type) (dsl : String) (reg : List (String × TaskDef V ε))
        (input : List (String × V)) (fd : FlowData),
        parse_dsl dsl = .ok fd →
        buildDeps fd = .ok [("x", ["y"]), ("y", ["x"])] →
        runFlow dsl reg input = (.error (.circular c), []) := by
  have hC : closedDeps [("x", ["y"]), ("y", ["x"])] := by
    unfold closedDeps; decide
  have hstep1 : depOn [("x", ["y"]), ("y", ["x"])] "x" "y" :=
    ⟨["y"], by decide, by decide⟩
  have hstep2 : depOn [("x", ["y"]), ("y", ["x"])] "y" "x" :=
    ⟨["x"], by decide, by decide⟩
  have hcyc : ∃ t, Relation.TransGen (depOn [("x", ["y"]), ("y", ["x"])]) t t :=
    ⟨"x", Relation.TransGen.head hstep1 (Relation.TransGen.single hstep2)⟩
  exact ⟨hC, hcyc, scheduler_cycle_error _ hC hcyc⟩

/-! ## Execution-engine lemmas: induction over the schedule -/

theorem execLoop_trace_tasks {V ε : Type _} (reg : List (String × TaskDef V ε))
    (deps : List (String × List String)) (input : List (String × V)) :
    ∀ (order : List String) (results : List (String × V)) (c : Call V),
      c ∈ (execLoop reg deps input order results).2 → c.task ∈ order := by
  intro order
  induction order with
  | nil => intro results c hc; rw [execLoop_nil] at hc; cases hc
  | cons t rest ih =>
    intro results c hc
    cases hr : lookupKey reg t with
    | none => rw [execLoop_cons_unknown deps input rest results hr] at hc; cases hc
    | some td =>
      cases hd : lookupKey deps t with
      | none => rw [execLoop_cons_nodeps input rest results hr hd] at hc; cases hc
      | some taskDeps =>
        cases hb : buildArgs taskDeps td.params results input with
        | error d => rw [execLoop_cons_argErr rest hr hd hb] at hc; cases hc
        | ok args =>
          cases hf : td.func args with
          | error e =>
            rw [execLoop_cons_fail rest hr hd hb hf] at hc
            have hce : c = ⟨t, results, args⟩ := by simpa using hc
            subst hce
            exact List.mem_cons_self t rest
          | ok v =>
            rw [execLoop_cons_ok rest hr hd hb hf] at hc
            rcases List.mem_cons.mp hc with rfl | hc'
            · exact List.mem_cons_self t rest
            · exact List.mem_cons_of_mem _ (ih _ c hc')

theorem execLoop_call_shape {V ε : Type _} (reg : List (String × TaskDef V ε))
    (deps : List (String × List String)) (input : List (String × V)) :
    ∀ (order : List String) (results : List (String × V)) (c : Call V),
      c ∈ (execLoop reg deps input order results).2 →
      ∃ td taskDeps, lookupKey reg c.task = some td ∧
        lookupKey deps c.task = some taskDeps ∧
        buildArgs taskDeps td.params c.snapshot input = .ok c.args := by
  intro order
  induction order with
  | nil => intro results c hc; rw [execLoop_nil] at hc; cases hc
  | cons t rest ih =>
    intro results c hc
    cases hr : lookupKey reg t with
    | none => rw [execLoop_cons_unknown deps input rest results hr] at hc; cases hc
    | some td =>
      cases hd : lookupKey deps t with
      | none => rw [execLoop_cons_nodeps input rest results hr hd] at hc; cases hc
      | some taskDeps =>
        cases hb : buildArgs taskDeps td.params results input with
        | error d => rw [execLoop_cons_argErr rest hr hd hb] at hc; cases hc
        | ok args =>
          cases hf : td.func args with
          | error e =>
            rw [execLoop_cons_fail rest hr hd hb hf] at hc
            have hce : c = ⟨t, results, args⟩ := by simpa using hc
            subst hce
            exact ⟨td, taskDeps, hr, hd, hb⟩
          | ok v =>
            rw [execLoop_cons_ok rest hr hd hb hf] at hc
            rcases List.mem_cons.mp hc with rfl | hc'
            · exact ⟨td, taskDeps, hr, hd, hb⟩
            · exact ih _ c hc'

theorem execLoop_fail {V ε : Type _} (reg : List (String × TaskDef V ε))
    (deps : List (String × List String)) (input : List (String × V)) :
    ∀ (order : List String) (results : List (String × V)) (c : Call V)
      (td : TaskDef V ε) (e : ε),
      c ∈ (execLoop reg deps input order results).2 →
      lookupKey reg c.task = some td → td.func c.args = .error e →
      (execLoop reg deps input order results).1 = .error (.taskErr e) ∧
      (execLoop reg deps input order results).2.getLast? = some c := by
  intro order
  induction order with
  | nil => intro results c td e hc; rw [execLoop_nil] at hc; cases hc
  | cons t rest ih =>
    intro results c td e hc hreg hfc
    cases hr : lookupKey reg t with
    | none => rw [execLoop_cons_unknown deps input rest results hr] at hc; cases hc
    | some td0 =>
      cases hd : lookupKey deps t with
      | none => rw [execLoop_cons_nodeps input rest results hr hd] at hc; cases hc
      | some taskDeps =>
        cases hb : buildArgs taskDeps td0.params results input with
        | error d => rw [execLoop_cons_argErr rest hr hd hb] at hc; cases hc
        | ok args =>
          cases hf : td0.func args with
          | error e0 =>
            rw [execLoop_cons_fail rest hr hd hb hf] at hc
            have hce : c = ⟨t, results, args⟩ := by simpa using hc
            subst hce
            have htd : td0 = td := Option.some.inj (hr.symm.trans hreg)
            subst htd
            have he : e0 = e := Except.error.inj (hf.symm.trans hfc)
            subst he
            rw [execLoop_cons_fail rest hr hd hb hf]
            exact ⟨rfl, rfl⟩
          | ok v =>
            rw [execLoop_cons_ok rest hr hd hb hf] at hc
            rcases List.mem_cons.mp hc with rfl | hc'
            · have htd : td0 = td := Option.some.inj (hr.symm.trans hreg)
              subst htd
              rw [hfc] at hf
              cases hf
            · obtain ⟨ih1, ih2⟩ := ih (setKey results t v) c td e hc' hreg hfc
              rw [execLoop_cons_ok rest hr hd hb hf]
              refine ⟨ih1, ?_⟩
              show (Call.mk t results args ::
                (execLoop reg deps input rest (setKey results t v)).2).getLast? = some c
              cases htr : (execLoop reg deps input rest (setKey results t v)).2 with
              | nil => rw [htr] at hc'; cases hc'
              | cons c1 cs =>
                rw [htr] at ih2
                rw [List.getLast?_cons_cons, ih2]

theorem execLoop_append_ok {V ε : Type _} (reg : List (String × TaskDef V ε))
    (deps : List (String × List String)) (input : List (String × V)) :
    ∀ (l1 l2 : List String) (rs r1 : List (String × V)) (tr1 : List (Call V)),
      execLoop reg deps input l1 rs = (.ok r1, tr1) →
      execLoop reg deps input (l1 ++ l2) rs =
        ((execLoop reg deps input l2 r1).1,
          tr1 ++ (execLoop reg deps input l2 r1).2) := by
  intro l1
  induction l1 with
  | nil =>
    intro l2 rs r1 tr1 h
    rw [execLoop_nil] at h
    rw [Prod.mk.injEq] at h
    have h1 : rs = r1 := Except.ok.inj h.1
    subst h1
    rw [← h.2]
    simp
  | cons t rest ih =>
    intro l2 rs r1 tr1 h
    cases hr : lookupKey reg t with
    | none => rw [execLoop_cons_unknown deps input rest rs hr] at h; simp at h
    | some td =>
      cases hd : lookupKey deps t with
      | none => rw [execLoop_cons_nodeps input rest rs hr hd] at h; simp at h
      | some taskDeps =>
        cases hb : buildArgs taskDeps td.params rs input with
        | error d => rw [execLoop_cons_argErr rest hr hd hb] at h; simp at h
        | ok args =>
          cases hf : td.func args with
          | error e => rw [execLoop_cons_fail rest hr hd hb hf] at h; simp at h
          | ok v =>
            rw [execLoop_cons_ok rest hr hd hb hf] at h
            rw [Prod.mk.injEq] at h
            have heq : execLoop reg deps input rest (setKey rs t v) =
                (.ok r1, (execLoop reg deps input rest (setKey rs t v)).2) := by
              rw [← h.1]
            have hstep := ih l2 (setKey rs t v) r1
              ((execLoop reg deps input rest (setKey rs t v)).2) heq
            rw [List.cons_append, execLoop_cons_ok (rest ++ l2) hr hd hb hf, hstep,
              ← h.2]
            simp

/-! ## Dependency-map values are duplicate-free -/

theorem addDep_vals_nodup {m m' : List (String × List String)}
    (hm : ∀ t l, lookupKey m t = some l → l.Nodup)
    {target source : String} (h : addDep m target source = .ok m') :
    ∀ t l, lookupKey m' t = some l → l.Nodup := by
  unfold addDep at h
  cases hl : lookupKey m target with
  | none => rw [hl] at h; cases h
  | some l0 =>
    rw [hl] at h
    cases h
    intro t l hlk
    rw [lookupKey_setKey] at hlk
    by_cases ht : t = target
    · rw [if_pos ht] at hlk
      have hl' := (Option.some.inj hlk).symm
      subst hl'
      have hl0 := hm target l0 hl
      by_cases hs : source ∈ l0
      · rw [if_pos hs]; exact hl0
      · rw [if_neg hs]
        rw [List.nodup_append]
        exact ⟨hl0, List.nodup_singleton _,
          fun a ha ha' => hs ((List.mem_singleton.mp ha') ▸ ha)⟩
    · rw [if_neg ht] at hlk
      exact hm t l hlk

theorem depsFold_vals_nodup :
    ∀ (conns : List (String × String)) (m m' : List (String × List String)),
      (∀ t l, lookupKey m t = some l → l.Nodup) →
      depsFold conns m = .ok m' →
      ∀ t l, lookupKey m' t = some l → l.Nodup := by
  intro conns
  induction conns with
  | nil =>
    intro m m' hm h
    simp [depsFold] at h
    rw [← h]; exact hm
  | cons cn rest ih =>
    obtain ⟨s, tg⟩ := cn
    intro m m' hm h
    unfold depsFold at h
    cases ha : addDep m tg s with
    | error k => rw [ha] at h; cases h
    | ok m2 =>
      rw [ha] at h
      exact ih m2 m' (addDep_vals_nodup hm ha) h

theorem lookup_init_deps :
    ∀ (ts : List (String × TaskNode)) (t : String) (l : List String),
      lookupKey (ts.map (fun p => (p.1, ([] : List String)))) t = some l →
      l = [] := by
  intro ts
  induction ts with
  | nil => intro t l h; cases h
  | cons p rest ih =>
    intro t l h
    rw [List.map_cons] at h
    unfold lookupKey at h
    by_cases hp : p.1 = t
    · rw [if_pos hp] at h; exact (Option.some.inj h).symm
    · rw [if_neg hp] at h; exact ih t l h

theorem buildDeps_vals_nodup {fd : FlowData} {m : List (String × List String)}
    (h : buildDeps fd = .ok m) :
    ∀ t l, lookupKey m t = some l → l.Nodup := by
  unfold buildDeps at h
  refine depsFold_vals_nodup _ _ _ ?_ h
  intro t l hl
  rw [lookup_init_deps fd.tasks t l hl]
  exact List.nodup_nil

/-! ## Claim C4 : the assembled keyword arguments -/

/-- Counterexample to claim C4 as stated: in the flow `a -> b` with
`b(a_result)` and input data `{"a_result": "X"}`, task `a` computes
`"A"` but `b` is invoked with `a_result = "X"` — the input-data value,
not the dependency result — so the claimed binding of `a_result` to
`results["a"]` is not in the mapping. -/
theorem run_argument_assembly_cex :
    (runFlow "flow F:\na -> b" overrideReg [("a_result", "X")]).2 =
      [⟨"a", [], []⟩, ⟨"b", [("a", "A")], [("a_result", "X")]⟩] ∧
    (runFlow "flow F:\na -> b" overrideReg [("a_result", "X")]).1 =
      .ok [("a", "A"), ("b", "X")] ∧
    lookupKey [("a", "A")] "a" = some "A" ∧
    lookupKey [("a_result", "X")] "a_result" = some "X" ∧
    ¬ ("a_result", "A") ∈ [("a_result", "X")] := by
  decide

/-- Claim C4 (amended): for every task invoked by `run`, the assembled
keyword arguments bind exactly (a) each `"{d}_result"` parameter of a
direct dependency `d` to `d`'s already-computed result and (b) each
`input_data` key that is a formal parameter to the input value, with
(b) taking precedence over (a) when the same name occurs in both; no
other argument is passed and non-parameter input keys are ignored
(this is `argSpec`). -/
theorem run_argument_assembly {V ε : Type _} (dsl : String)
    (reg : List (String × TaskDef V ε)) (input : List (String × V))
    (hin : (input.map Prod.fst).Nodup)
    (fd : FlowData) (depsm : List (String × List String))
    (hp : parse_dsl dsl = .ok fd) (hb : buildDeps fd = .ok depsm)
    (c : Call V) (td : TaskDef V ε) (taskDeps : List String)
    (hc : c ∈ (runFlow dsl reg input).2)
    (hreg : lookupKey reg c.task = some td)
    (hdeps : lookupKey depsm c.task = some taskDeps) :
    ∀ k, lookupKey c.args k = argSpec taskDeps td.params c.snapshot input k := by
  unfold runFlow at hc
  rw [hp] at hc
  dsimp only at hc
  rw [hb] at hc
  dsimp only at hc
  cases ht : topoSort depsm with
  | error te =>
    cases te with
    | circular t => rw [ht] at hc; simp at hc
    | keyError t => rw [ht] at hc; simp at hc
    | fuelOut => rw [ht] at hc; simp at hc
  | ok order =>
    rw [ht] at hc
    dsimp only at hc
    obtain ⟨td', taskDeps', hreg', hdeps', hargs⟩ :=
      execLoop_call_shape reg depsm input order [] c hc
    have htd : td' = td := Option.some.inj (hreg'.symm.trans hreg)
    have htds : taskDeps' = taskDeps := Option.some.inj (hdeps'.symm.trans hdeps)
    rw [htd, htds] at hargs
    exact buildArgs_lookup (buildDeps_vals_nodup hb c.task taskDeps hdeps) hin hargs

theorem run_argument_assembly_witness :
    (([("a_result", "X")].map (Prod.fst (α := String) (β := String))).Nodup) ∧
    (⟨"b", [("a", "A")], [("a_result", "X")]⟩ : Call String) ∈
      (runFlow "flow F:\na -> b" overrideReg [("a_result", "X")]).2 ∧
    ∀ k, lookupKey ([("a_result", "X")] : List (String × String)) k =
      argSpec ["a"] ["a_result"] [("a", "A")] [("a_result", "X")] k := by
  refine ⟨by decide, by decide, ?_⟩
  exact run_argument_assembly "flow F:\na -> b" overrideReg [("a_result", "X")]
    (by decide) _ _ rfl rfl ⟨"b", [("a", "A")], [("a_result", "X")]⟩
    ⟨["a_result"], fun args => .ok ((lookupKey args "a_result").getD "")⟩
    ["a"] (by decide) rfl (by decide)

/-! ## Claim C5 : exception propagation -/

/-- Claim C5: if the callable of any invoked task raises, `run` re-raises that
exception unchanged as its own result (so no results dict is returned)
and the failing invocation is the last one in the trace — no task
scheduled after it is invoked. -/
theorem run_propagates_task_exception {V ε : Type _} (dsl : String)
    (reg : List (String × TaskDef V ε)) (input : List (String × V))
    (c : Call V) (td : TaskDef V ε) (e : ε)
    (hc : c ∈ (runFlow dsl reg input).2)
    (hreg : lookupKey reg c.task = some td)
    (hf : td.func c.args = .error e) :
    (runFlow dsl reg input).1 = .error (.taskErr e) ∧
    (runFlow dsl reg input).2.getLast? = some c := by
  unfold runFlow at hc ⊢
  cases hp : parse_dsl dsl with
  | error pe => rw [hp] at hc; simp at hc
  | ok fd =>
    rw [hp] at hc
    dsimp only at hc ⊢
    cases hb : buildDeps fd with
    | error k => rw [hb] at hc; simp at hc
    | ok depsm =>
      rw [hb] at hc
      dsimp only at hc ⊢
      cases ht : topoSort depsm with
      | error te =>
        cases te with
        | circular t => rw [ht] at hc; simp at hc
        | keyError t => rw [ht] at hc; simp at hc
        | fuelOut => rw [ht] at hc; simp at hc
      | ok order =>
        rw [ht] at hc
        dsimp only at hc ⊢
        exact execLoop_fail reg depsm input order [] c td e hc hreg hf

theorem run_propagates_task_exception_witness :
    (⟨"a", [], []⟩ : Call String) ∈ (runFlow "flow F:\na -> b" failReg []).2 ∧
    (runFlow "flow F:\na -> b" failReg []).1 = .error (.taskErr "boom") ∧
    (runFlow "flow F:\na -> b" failReg []).2.getLast? = some ⟨"a", [], []⟩ := by
  refine ⟨by decide, ?_⟩
  exact run_propagates_task_exception "flow F:\na -> b" failReg []
    ⟨"a", [], []⟩ ⟨[], fun _ => .error "boom"⟩ "boom" (by decide) rfl rfl

/-! ## Claim C9 : unknown scheduled task -/

/-- Claim C9: when execution reaches the turn of a scheduled task that is absent
from the registry (everything before it in the order having executed
successfully), `run` fails with the unknown-task `ValueError`: the
missing task is never invoked, no later task is invoked, and the run
returns the error instead of any results. -/
theorem run_unknown_task {V ε : Type _} (dsl : String)
    (reg : List (String × TaskDef V ε)) (input : List (String × V))
    (fd : FlowData) (depsm : List (String × List String))
    (pre post : List String) (t : String)
    (resPre : List (String × V)) (trPre : List (Call V))
    (hp : parse_dsl dsl = .ok fd) (hb : buildDeps fd = .ok depsm)
    (ho : topoSort depsm = .ok (pre ++ t :: post))
    (hreg : lookupKey reg t = none)
    (hpre : execLoop reg depsm input pre [] = (.ok resPre, trPre)) :
    runFlow dsl reg input = (.error (.unknownTask t), trPre) ∧
    (∀ c ∈ trPre, c.task ≠ t) ∧
    ∀ u ∈ post, ∀ c ∈ trPre, c.task ≠ u := by
  have hnd := (topoSort_ok_strong ho).1
  rw [List.nodup_append] at hnd
  have hstep : execLoop reg depsm input (t :: post) resPre =
      (.error (.unknownTask t), []) :=
    execLoop_cons_unknown depsm input post resPre hreg
  refine ⟨?_, ?_, ?_⟩
  · unfold runFlow
    rw [hp]
    dsimp only
    rw [hb]
    dsimp only
    rw [ho]
    dsimp only
    rw [execLoop_append_ok reg depsm input pre (t :: post) [] resPre trPre hpre,
      hstep]
    simp
  · intro c hcm hct
    have hcp := execLoop_trace_tasks reg depsm input pre [] c (by rw [hpre]; exact hcm)
    rw [hct] at hcp
    exact hnd.2.2 hcp (List.mem_cons_self t post)
  · intro u hu c hcm hcu
    have hcp := execLoop_trace_tasks reg depsm input pre [] c (by rw [hpre]; exact hcm)
    rw [hcu] at hcp
    exact hnd.2.2 hcp (List.mem_cons_of_mem _ hu)

theorem run_unknown_task_witness :
    parse_dsl "flow F:\na -> b" =
      .ok ⟨"F", "", [("a", ⟨"a", .vlist [], .vlist ["b"], []⟩),
                     ("b", ⟨"b", .vlist ["a"], .vlist [], []⟩)], [("a", "b")]⟩ ∧
    topoSort [("a", []), ("b", ["a"])] = .ok (["a"] ++ "b" :: []) ∧
    lookupKey limitedReg "b" = none ∧
    runFlow "flow F:\na -> b" limitedReg [] =
      (.error (.unknownTask "b"), [⟨"a", [], []⟩]) ∧
    (∀ c ∈ [(⟨"a", [], []⟩ : Call String)], c.task ≠ "b") ∧
    ∀ u ∈ ([] : List String), ∀ c ∈ [(⟨"a", [], []⟩ : Call String)], c.task ≠ u := by
  refine ⟨by decide, by decide, rfl, ?_⟩
  exact run_unknown_task "flow F:\na -> b" limitedReg []
    ⟨"F", "", [("a", ⟨"a", .vlist [], .vlist ["b"], []⟩),
               ("b", ⟨"b", .vlist ["a"], .vlist [], []⟩)], [("a", "b")]⟩
    [("a", []), ("b", ["a"])] ["a"] [] "b" [("a", "A")] [⟨"a", [], []⟩]
    rfl rfl (by decide) rfl rfl

/-! ## Claim C10 : input data overrides dependency results -/

/-- Claim C10: input-data bindings are applied after dependency-result bindings:
if a task has a direct dependency `d`, its callable has the parameter
`"{d}_result"`, and `input_data` also contains that key, the callable
receives the `input_data` value for that parameter. -/
theorem run_input_overrides_dep_result {V ε : Type _} (dsl : String)
    (reg : List (String × TaskDef V ε)) (input : List (String × V))
    (hin : (input.map Prod.fst).Nodup)
    (fd : FlowData) (depsm : List (String × List String))
    (hp : parse_dsl dsl = .ok fd) (hb : buildDeps fd = .ok depsm)
    (c : Call V) (td : TaskDef V ε) (taskDeps : List String) (d : String) (v : V)
    (hc : c ∈ (runFlow dsl reg input).2)
    (hreg : lookupKey reg c.task = some td)
    (hdeps : lookupKey depsm c.task = some taskDeps)
    (hd : d ∈ taskDeps)
    (hparam : (d ++ "_result") ∈ td.params)
    (hiv : lookupKey input (d ++ "_result") = some v) :
    lookupKey c.args (d ++ "_result") = some v := by
  unfold runFlow at hc
  rw [hp] at hc
  dsimp only at hc
  rw [hb] at hc
  dsimp only at hc
  cases ht : topoSort depsm with
  | error te =>
    cases te with
    | circular t => rw [ht] at hc; simp at hc
    | keyError t => rw [ht] at hc; simp at hc
    | fuelOut => rw [ht] at hc; simp at hc
  | ok order =>
    rw [ht] at hc
    dsimp only at hc
    obtain ⟨td', taskDeps', hreg', hdeps', hargs⟩ :=
      execLoop_call_shape reg depsm input order [] c hc
    have htd : td' = td := Option.some.inj (hreg'.symm.trans hreg)
    rw [htd] at hargs
    unfold buildArgs at hargs
    cases hda : addDepArgs td.params c.snapshot taskDeps' [] with
    | error d0 => rw [hda] at hargs; cases hargs
    | ok args1 =>
      rw [hda] at hargs
      have hae := Except.ok.inj hargs
      rw [← hae]
      exact addInputArgs_lookup_present td.params input args1 _ v hin hiv hparam

theorem run_input_overrides_dep_result_witness :
    (([("a_result", "X")].map (Prod.fst (α := String) (β := String))).Nodup) ∧
    "a" ∈ ["a"] ∧ ("a" ++ "_result") ∈ ["a_result"] ∧
    lookupKey [("a_result", "X")] ("a" ++ "_result") = some "X" ∧
    lookupKey ([("a_result", "X")] : List (String × String)) ("a" ++ "_result") =
      some "X" := by
  refine ⟨by decide, by decide, by decide, by decide, ?_⟩
  exact run_input_overrides_dep_result "flow F:\na -> b" overrideReg
    [("a_result", "X")] (by decide) _ _ rfl rfl
    ⟨"b", [("a", "A")], [("a_result", "X")]⟩
    ⟨["a_result"], fun args => .ok ((lookupKey args "a_result").getD "")⟩
    ["a"] "a" "X" (by decide) rfl (by decide) (by decide) (by decide) (by decide)
